import Mathlib

/-!
# The `sqine` and `sine2` oscillators

A shallow embedding of `platform/prologue/contrib/sqine/sqine.cpp` (a blend of a sine and a
pulse wave) and `platform/prologue/contrib/sine2/sine2.cpp` (a plain sine), followed by the
properties of their phase tracker, frequency resolver and waveform generators.

Modelling conventions.

* A C `float` is a rational number (`ℚ`).  In `State.sig_locals` and `Sine2.sig_locals` every
  arithmetic step is the exact one.  `State.sig_locals_rounded` is the same body with every
  float operation followed by a rounding (`Rounding`), for the one property that depends on
  the rounding of `frames_per_cycle`, the length of a cycle in samples.  Infinities and NaN are
  outside the model.
* `uint8_t` and `uint32_t` values are natural numbers; the one place where the width of the
  frame counter matters (`frame++`) reduces modulo `2 ^ 32` explicitly.
* Everything `userosc.h` provides (constants, lookup tables, the sine primitive, the fixed
  point conversions) is absent from the sources and is a field of `Env`.  The three scalar
  helpers `linintf`, `clipmaxf` and `clipminmaxf` are modelled from the specification.
* A method of the C++ structs is a function from the state before the call to the state after
  it, paired with the returned value when there is one.
-/

namespace Logue

/-! ## What `userosc.h` provides -/

/-- The constants and primitives of `userosc.h` used by the two oscillators.  The header is not
among the sources, so each of them is a parameter.  `osc_notehzf` receives the value of the
argument expression as written at the call site (`note`, `note + 1`). -/
structure Env where
  /-- The sample rate, an integer constant. -/
  k_samplerate : Nat
  /-- The scale that turns the modulation byte into a fraction of a semitone. -/
  k_note_mod_fscale : ℚ
  /-- The ceiling of the resolved frequency. -/
  k_note_max_hz : ℚ
  /-- The note index to Hz table. -/
  osc_notehzf : Nat → ℚ
  /-- The sine primitive, indexed by a phase fraction. -/
  osc_sinf : ℚ → ℚ
  /-- Fixed point to float conversion. -/
  q31_to_f32 : Int → ℚ
  /-- Float to fixed point conversion. -/
  f32_to_q31 : ℚ → Int

/-- Modelled from the spec: `linintf` is a float helper of the SDK headers, which are not among
the sources.  Section 4.1 gives the interpolation as `hz = f0 + mod_fraction * (f1 - f0)`. -/
def linintf (fr x0 x1 : ℚ) : ℚ :=
  x0 + fr * (x1 - x0)

/-- Modelled from the spec: `clipmaxf` is a float helper of the SDK headers, which are not among
the sources.  Section 4.1 calls it the clamp of `hz` to an upper bound. -/
def clipmaxf (x m : ℚ) : ℚ :=
  if x ≥ m then m else x

/-- Modelled from the spec: `clipminmaxf` is a float helper of the SDK headers, which are not
among the sources.  Sections 4.4 and 6 call it the scalar clamp of a value into a closed
interval, here `[lo, hi]`. -/
def clipminmaxf (lo x hi : ℚ) : ℚ :=
  if x ≥ hi then hi else if x ≤ lo then lo else x

/-- The fields of `user_osc_param_t` that `OSC_CYCLE` reads and uses. The locals `cutoff` and
`resonance` of `OSC_CYCLE` are computed and never used, and are left out. -/
structure user_osc_param_t where
  /-- A q31 value. -/
  shape_lfo : Int
  /-- A 16 bit value: the note in the high byte, the modulation in the low byte. -/
  pitch : Nat

/-- The parameter identifiers of `userosc.h` that label the `switch` of `OSC_PARAM`, and the
macro `param_val_to_f32`.  The header is not among the sources, so each of them is a
parameter; an identifier is the integer value of the enumerator. -/
structure ParamEnv where
  k_osc_param_id1 : Nat
  k_osc_param_id2 : Nat
  k_osc_param_id3 : Nat
  k_osc_param_id4 : Nat
  k_osc_param_id5 : Nat
  k_osc_param_id6 : Nat
  k_osc_param_shape : Nat
  k_osc_param_shiftshape : Nat
  /-- The conversion of a 16 bit parameter value to a float. -/
  param_val_to_f32 : Nat → ℚ

/-! ## `sqine.cpp` -/

/-- The constant `PWM_MIN` of sqine.cpp, line 42. -/
def PWM_MIN : ℚ := 0

/-- The constant `PWM_MAX` of sqine.cpp, line 43. -/
def PWM_MAX : ℚ := 1

/-- The `struct State` of sqine.cpp, lines 45-54. -/
structure State where
  /-- Pulse width modulation, documented as a value of `[0..1]`. -/
  pwm : ℚ
  /-- Blend between square and sine, documented as a value of `[0..1]`. -/
  blend : ℚ
  /-- Current frame counter, a `uint32_t`. -/
  frame : Nat
  deriving DecidableEq, Repr

/-- The method `State::set_blend`, lines 70-72. -/
def State.set_blend (s : State) (value : ℚ) : State :=
  { s with blend := clipminmaxf PWM_MIN value PWM_MAX }

/-- The method `State::set_pwm`, lines 74-76. -/
def State.set_pwm (s : State) (value : ℚ) : State :=
  { s with pwm := clipminmaxf PWM_MIN value PWM_MAX }

/-- The method `State::init`, lines 60-64. -/
def State.init (s : State) : State :=
  let s := s.set_blend (1 / 2)
  let s := s.set_pwm 0
  { s with frame := 0 }

/-- The method `State::note_on`, lines 66-68. -/
def State.note_on (s : State) : State :=
  { s with frame := 0 }

/-- The method `State::increment_frame`, lines 78-82.  `frame++` is taken modulo `2 ^ 32`. -/
def State.increment_frame (env : Env) (s : State) : State :=
  let frame := (s.frame + 1) % 2 ^ 32
  if frame ≥ env.k_samplerate then { s with frame := 0 } else { s with frame := frame }

/-- The locals of `State::sig` at its `return`, one field per local, in the order of their
definition.  `frame` is the member after the conditional reset of lines 95-96 and `phase` is the
argument expression of the call of `osc_sinf`, line 105. -/
structure SigLocals where
  hz : ℚ
  frames_per_cycle : ℚ
  frame : Nat
  frames_on : ℚ
  square_val : ℚ
  phase : ℚ
  sine_val : ℚ
  tmp_blend : ℚ
  ret : ℚ

/-- The body of `State::sig`, lines 84-114, statement by statement. -/
def State.sig_locals (env : Env) (s : State) (note mod : Nat) (lfo : ℚ) : SigLocals :=
  let f0 := env.osc_notehzf note
  let f1 := env.osc_notehzf (note + 1)
  let hz := clipmaxf (linintf ((mod : ℚ) * env.k_note_mod_fscale) f0 f1) env.k_note_max_hz
  let hz := if hz < 1 then 1 else hz
  let frames_per_cycle := (env.k_samplerate : ℚ) / hz
  let frame := if (s.frame : ℚ) ≥ frames_per_cycle then 0 else s.frame
  let frames_on := frames_per_cycle / 2 + frames_per_cycle / 2 * s.pwm
  let square_val : ℚ := if (frame : ℚ) < frames_on then 1 else -1
  let phase := (frame : ℚ) / frames_per_cycle
  let sine_val := env.osc_sinf phase
  let lfo_knob_scale : ℚ := 1 / 2
  let tmp_blend := s.blend + lfo_knob_scale * lfo
  let tmp_blend := clipminmaxf PWM_MIN tmp_blend PWM_MAX
  let ret := tmp_blend * square_val + (1 - tmp_blend) * sine_val
  { hz := hz, frames_per_cycle := frames_per_cycle, frame := frame, frames_on := frames_on,
    square_val := square_val, phase := phase, sine_val := sine_val, tmp_blend := tmp_blend,
    ret := ret }

/-- The method `State::sig`, lines 84-114: the returned sample and the state it leaves. -/
def State.sig (env : Env) (s : State) (note mod : Nat) (lfo : ℚ) : ℚ × State :=
  let l := s.sig_locals env note mod lfo
  (l.ret, { s with frame := l.frame })

/-- The loop of `OSC_CYCLE` in sqine.cpp, lines 137-141, run `frames` times: evaluate, write the
quantized sample, advance. -/
def State.cycle_loop (env : Env) (note mod : Nat) (lfo : ℚ) : Nat → State → List Int × State
  | 0, s => ([], s)
  | frames + 1, s =>
    let r := s.sig env note mod lfo
    let s := r.2.increment_frame env
    let rest := State.cycle_loop env note mod lfo frames s
    (env.f32_to_q31 r.1 :: rest.1, rest.2)

/-- The entry point `OSC_CYCLE` of sqine.cpp, lines 124-142: the samples written to `yn` and the
state of `s_state` afterwards. -/
def State.OSC_CYCLE (env : Env) (s : State) (params : user_osc_param_t) (frames : Nat) :
    List Int × State :=
  let note := (params.pitch / 2 ^ 8) % 2 ^ 8
  let mod := params.pitch % 2 ^ 8
  let lfo := env.q31_to_f32 params.shape_lfo
  State.cycle_loop env note mod lfo frames s

/-- The entry point `OSC_NOTEON` of sqine.cpp, lines 144-147. -/
def State.OSC_NOTEON (s : State) (_params : user_osc_param_t) : State :=
  s.note_on

/-- The entry point `OSC_NOTEOFF` of sqine.cpp, lines 149-151. -/
def State.OSC_NOTEOFF (s : State) (_params : user_osc_param_t) : State :=
  s

/-- The entry point `OSC_INIT` of sqine.cpp, lines 119-122. -/
def State.OSC_INIT (s : State) (_platform _api : Nat) : State :=
  s.init

/-- The entry point `OSC_PARAM` of sqine.cpp, lines 153-177: the `switch` on `index`, with the
label `k_osc_param_shape` first, the seven labels that share `set_pwm` next, and `default`. -/
def State.OSC_PARAM (penv : ParamEnv) (s : State) (index value : Nat) : State :=
  let valf := penv.param_val_to_f32 value
  if index = penv.k_osc_param_shape then
    s.set_blend valf
  else if index = penv.k_osc_param_id1 ∨ index = penv.k_osc_param_id2 ∨
      index = penv.k_osc_param_id3 ∨ index = penv.k_osc_param_id4 ∨
      index = penv.k_osc_param_id5 ∨ index = penv.k_osc_param_id6 ∨
      index = penv.k_osc_param_shiftshape then
    s.set_pwm valf
  else
    s

/-! ## `sine2.cpp` -/

/-- The `struct Sine2` of sine2.cpp, lines 43-44. -/
structure Sine2 where
  /-- The frame counter, a `uint32_t`. -/
  frames : Nat
  deriving DecidableEq, Repr

/-- The method `Sine2::init`, lines 50-52. -/
def Sine2.init (_s : Sine2) : Sine2 :=
  { frames := 0 }

/-- The method `Sine2::note_on`, lines 54-56. -/
def Sine2.note_on (_s : Sine2) : Sine2 :=
  { frames := 0 }

/-- The method `Sine2::increment_frame`, lines 58-62.  `frames++` is taken modulo `2 ^ 32`. -/
def Sine2.increment_frame (env : Env) (s : Sine2) : Sine2 :=
  let frames := (s.frames + 1) % 2 ^ 32
  if frames ≥ env.k_samplerate then { frames := 0 } else { frames := frames }

/-- The locals of `Sine2::sig` at its `return`.  `frames` is the member after the conditional
reset of lines 75-76 and `phase` is the argument expression of the call of `osc_sinf`. -/
structure Sine2Locals where
  hz : ℚ
  frames_per_cycle : ℚ
  frames : Nat
  phase : ℚ
  ret : ℚ

/-- The body of `Sine2::sig`, lines 64-82, statement by statement.  The parameter `lfo` is not
read. -/
def Sine2.sig_locals (env : Env) (s : Sine2) (note mod : Nat) (_lfo : ℚ) : Sine2Locals :=
  let f0 := env.osc_notehzf note
  let f1 := env.osc_notehzf (note + 1)
  let hz := clipmaxf (linintf ((mod : ℚ) * env.k_note_mod_fscale) f0 f1) env.k_note_max_hz
  let hz := if hz < 1 then 1 else hz
  let frames_per_cycle := (env.k_samplerate : ℚ) / hz
  let frames := if (s.frames : ℚ) ≥ frames_per_cycle then 0 else s.frames
  let phase := (frames : ℚ) / frames_per_cycle
  let ret := env.osc_sinf phase
  { hz := hz, frames_per_cycle := frames_per_cycle, frames := frames, phase := phase, ret := ret }

/-- The method `Sine2::sig`, lines 64-82: the returned sample and the state it leaves. -/
def Sine2.sig (env : Env) (s : Sine2) (note mod : Nat) (lfo : ℚ) : ℚ × Sine2 :=
  let l := s.sig_locals env note mod lfo
  (l.ret, { frames := l.frames })

/-- The loop of `OSC_CYCLE` in sine2.cpp, lines 108-112, run `frames` times: advance, evaluate,
write the quantized sample. -/
def Sine2.cycle_loop (env : Env) (note mod : Nat) (lfo : ℚ) : Nat → Sine2 → List Int × Sine2
  | 0, s => ([], s)
  | frames + 1, s =>
    let s := s.increment_frame env
    let r := s.sig env note mod lfo
    let rest := Sine2.cycle_loop env note mod lfo frames r.2
    (env.f32_to_q31 r.1 :: rest.1, rest.2)

/-- The entry point `OSC_CYCLE` of sine2.cpp, lines 95-113. -/
def Sine2.OSC_CYCLE (env : Env) (s : Sine2) (params : user_osc_param_t) (frames : Nat) :
    List Int × Sine2 :=
  let note := (params.pitch / 2 ^ 8) % 2 ^ 8
  let mod := params.pitch % 2 ^ 8
  let lfo := env.q31_to_f32 params.shape_lfo
  Sine2.cycle_loop env note mod lfo frames s

/-- The entry point `OSC_INIT` of sine2.cpp, lines 87-90. -/
def Sine2.OSC_INIT (s : Sine2) (_platform _api : Nat) : Sine2 :=
  s.init

/-- The entry point `OSC_NOTEON` of sine2.cpp, lines 115-118. -/
def Sine2.OSC_NOTEON (s : Sine2) (_params : user_osc_param_t) : Sine2 :=
  s.note_on

/-- The entry point `OSC_NOTEOFF` of sine2.cpp, lines 120-122. -/
def Sine2.OSC_NOTEOFF (s : Sine2) (_params : user_osc_param_t) : Sine2 :=
  s

/-- The entry point `OSC_PARAM` of sine2.cpp, lines 124-140: every label of the `switch` falls
through to the `break` of `default`, and `valf` is not used. -/
def Sine2.OSC_PARAM (_penv : ParamEnv) (s : Sine2) (_index _value : Nat) : Sine2 :=
  s

/-! ## The labels of the `switch` of `OSC_PARAM` -/

/-- The seven labels of the `switch` of sqine.cpp, lines 163-169, that share the call of
`set_pwm`. -/
def ParamEnv.pwm_labels (penv : ParamEnv) : List Nat :=
  [penv.k_osc_param_id1, penv.k_osc_param_id2, penv.k_osc_param_id3, penv.k_osc_param_id4,
    penv.k_osc_param_id5, penv.k_osc_param_id6, penv.k_osc_param_shiftshape]

/-! ## Operations and reachable states of the blended variant -/

/-- One call on the `State` object: its methods, as the entry points invoke them. -/
inductive Op where
  | init
  | note_on
  | set_blend (value : ℚ)
  | set_pwm (value : ℚ)
  | increment_frame
  | sig (note mod : Nat) (lfo : ℚ)

/-- The state after one call. -/
def Op.apply (env : Env) (s : State) : Op → State
  | .init => s.init
  | .note_on => s.note_on
  | .set_blend v => s.set_blend v
  | .set_pwm v => s.set_pwm v
  | .increment_frame => s.increment_frame env
  | .sig note mod lfo => (s.sig env note mod lfo).2

/-- The state after a sequence of calls, starting with the constructor `State(void)` (lines
56-58), which runs `init` on the fresh object `s0`. -/
def State.run (env : Env) (s0 : State) (ops : List Op) : State :=
  ops.foldl (Op.apply env) s0.init

/-- One call on the `Sine2` object: its methods, as the entry points invoke them. -/
inductive Sine2Op where
  | init
  | note_on
  | increment_frame
  | sig (note mod : Nat) (lfo : ℚ)

/-- The state of the sine variant after one call. -/
def Sine2Op.apply (env : Env) (s : Sine2) : Sine2Op → Sine2
  | .init => s.init
  | .note_on => s.note_on
  | .increment_frame => s.increment_frame env
  | .sig note mod lfo => (s.sig env note mod lfo).2

/-- The state of the sine variant after a sequence of calls, starting with the constructor
`Sine2(void)` (lines 46-48), which runs `init` on the fresh object `s0`. -/
def Sine2.run (env : Env) (s0 : Sine2) (ops : List Sine2Op) : Sine2 :=
  ops.foldl (Sine2Op.apply env) s0.init

/-! ## Definitions in the words of the specification -/

/-- The effective blend in the words of section 4.4:
`effective_blend = clamp(blend_ratio + 0.5 * lfo, 0, 1)`. -/
def effective_blend (blend_ratio lfo : ℚ) : ℚ :=
  min (max (blend_ratio + 1 / 2 * lfo) 0) 1

/-- The knob ranges of the data model, section 3: `pwm_ratio` and `blend_ratio` in `[0, 1]`. -/
def State.knobs_in_range (s : State) : Prop :=
  (0 ≤ s.pwm ∧ s.pwm ≤ 1) ∧ (0 ≤ s.blend ∧ s.blend ≤ 1)

/-! ## Float arithmetic with rounding -/

/-- The nearest integer to a rational, a tie going to the even neighbour. -/
def round_half_even (x : ℚ) : ℤ :=
  let f := ⌊x⌋
  let d := x - f
  if d < 1 / 2 then f else if 1 / 2 < d then f + 1 else if f % 2 = 0 then f else f + 1

/-- The nearest value to `x` in the binary floating point format with `p` significand bits whose
least positive value is `2 ^ emin`, a tie going to the even significand.  The exponent is not
bounded above: overflow to infinity is outside the model. -/
def round_to_format (p : Nat) (emin : Int) (x : ℚ) : ℚ :=
  let q := max (Int.log 2 |x| - ((p : Int) - 1)) emin
  (round_half_even (x / 2 ^ q) : ℚ) * 2 ^ q

/-- Rounding to binary32, the `float` of the target. -/
def binary32 (x : ℚ) : ℚ :=
  round_to_format 24 (-149) x

/-- Rounding to binary64, the `double` of the target. -/
def binary64 (x : ℚ) : ℚ :=
  round_to_format 53 (-1074) x

/-- The roundings of the float arithmetic: `f32` follows every `float` operation and every
conversion of an integer to `float`, `f64` follows every `double` operation. -/
structure Rounding where
  f32 : ℚ → ℚ
  f64 : ℚ → ℚ

/-- No rounding: the exact arithmetic of `State.sig_locals`. -/
def Rounding.exact : Rounding where
  f32 := fun x => x
  f64 := fun x => x

/-- The rounding of the target: binary32 for `float`, binary64 for `double`. -/
def Rounding.ieee : Rounding where
  f32 := binary32
  f64 := binary64

/-- Modelled from the spec: `linintf` with rounding, `hz = f0 + mod_fraction * (f1 - f0)` of
section 4.1 with each of its three float operations rounded. -/
def linintf_rounded (r : Rounding) (fr x0 x1 : ℚ) : ℚ :=
  r.f32 (x0 + r.f32 (fr * r.f32 (x1 - x0)))

/-- The body of `State::sig`, lines 84-114, statement by statement, with the rounding of every
float operation: the conversions of `mod`, `k_samplerate` and `frame` to `float`, the `float`
product, quotient, sums and difference, and the `double` arithmetic of line 99 (its literal
`2.0` is a `double`) followed by the conversion to `float`.  The values of the environment and
the knobs are floats already. -/
def State.sig_locals_rounded (r : Rounding) (env : Env) (s : State) (note mod : Nat) (lfo : ℚ) :
    SigLocals :=
  let f0 := env.osc_notehzf note
  let f1 := env.osc_notehzf (note + 1)
  let hz := clipmaxf (linintf_rounded r (r.f32 (r.f32 (mod : ℚ) * env.k_note_mod_fscale)) f0 f1)
    env.k_note_max_hz
  let hz := if hz < 1 then 1 else hz
  let frames_per_cycle := r.f32 (r.f32 (env.k_samplerate : ℚ) / hz)
  let frame := if r.f32 (s.frame : ℚ) ≥ frames_per_cycle then 0 else s.frame
  let frames_on := r.f32 (r.f64 (r.f64 (frames_per_cycle / 2)
    + r.f64 (r.f64 (frames_per_cycle / 2) * s.pwm)))
  let square_val : ℚ := if r.f32 (frame : ℚ) < frames_on then 1 else -1
  let phase := r.f32 (r.f32 (frame : ℚ) / frames_per_cycle)
  let sine_val := env.osc_sinf phase
  let lfo_knob_scale : ℚ := 1 / 2
  let tmp_blend := r.f32 (s.blend + r.f32 (lfo_knob_scale * lfo))
  let tmp_blend := clipminmaxf PWM_MIN tmp_blend PWM_MAX
  let ret := r.f32 (r.f32 (tmp_blend * square_val) + r.f32 (r.f32 (1 - tmp_blend) * sine_val))
  { hz := hz, frames_per_cycle := frames_per_cycle, frame := frame, frames_on := frames_on,
    square_val := square_val, phase := phase, sine_val := sine_val, tmp_blend := tmp_blend,
    ret := ret }

/-- The method `State::sig` with rounding: the returned sample and the state it leaves. -/
def State.sig_rounded (r : Rounding) (env : Env) (s : State) (note mod : Nat) (lfo : ℚ) :
    ℚ × State :=
  let l := s.sig_locals_rounded r env note mod lfo
  (l.ret, { s with frame := l.frame })

/-- The loop of `OSC_CYCLE` in sqine.cpp, lines 137-141, with the rounded `sig`. -/
def State.cycle_loop_rounded (r : Rounding) (env : Env) (note mod : Nat) (lfo : ℚ) :
    Nat → State → List Int × State
  | 0, s => ([], s)
  | frames + 1, s =>
    let v := s.sig_rounded r env note mod lfo
    let s := v.2.increment_frame env
    let rest := State.cycle_loop_rounded r env note mod lfo frames s
    (env.f32_to_q31 v.1 :: rest.1, rest.2)

/-- The entry point `OSC_CYCLE` of sqine.cpp, lines 124-142, with the rounded `sig`. -/
def State.OSC_CYCLE_rounded (r : Rounding) (env : Env) (s : State) (params : user_osc_param_t)
    (frames : Nat) : List Int × State :=
  let note := (params.pitch / 2 ^ 8) % 2 ^ 8
  let mod := params.pitch % 2 ^ 8
  let lfo := env.q31_to_f32 params.shape_lfo
  State.cycle_loop_rounded r env note mod lfo frames s

/-- The cycle length in samples for a note and mod: the ceiling of the `frames_per_cycle` that
`State::sig` computes, rounding included.  That local depends on the note and mod only. -/
def State.cycle_samples (r : Rounding) (env : Env) (note mod : Nat) : Nat :=
  Nat.ceil ((⟨0, 0, 0⟩ : State).sig_locals_rounded r env note mod 0).frames_per_cycle

/-! ## A concrete environment -/

/-- A triangle wave through `0, 1, 0, -1, 0` on `[0, 1]`, clamped to `[-1, 1]` elsewhere: a
stand-in for the sine primitive with the same range. -/
def triangle (x : ℚ) : ℚ :=
  if x < 1 / 4 then clipminmaxf (-1) (4 * x) 1
  else if x < 3 / 4 then 2 - 4 * x
  else clipminmaxf (-1) (4 * x - 4) 1

/-- An environment with a 48 kHz sample rate, a note table rising by 10 Hz per note from 440 Hz
and the triangle wave as sine primitive. -/
def Env.sample : Env where
  k_samplerate := 48000
  k_note_mod_fscale := 1 / 255
  k_note_max_hz := 23680
  osc_notehzf := fun note => 440 + 10 * note
  osc_sinf := triangle
  q31_to_f32 := fun q => (q : ℚ) / 2 ^ 31
  f32_to_q31 := fun x => Int.floor (x * (2 ^ 31 - 1))

/-- The parameter identifiers numbered in the order of their names, and a parameter value scaled
from `0..1023` to `[0, 1]`. -/
def ParamEnv.sample : ParamEnv where
  k_osc_param_id1 := 0
  k_osc_param_id2 := 1
  k_osc_param_id3 := 2
  k_osc_param_id4 := 3
  k_osc_param_id5 := 4
  k_osc_param_id6 := 5
  k_osc_param_shape := 6
  k_osc_param_shiftshape := 7
  param_val_to_f32 := fun value => (value : ℚ) / 1023

/-- An environment whose table holds the float `4363.63623046875` at every note: the exact
quotient `48000 / 4363.63623046875` lies just above 11 and rounds to `11.0` in binary32. -/
def Env.near_integer : Env where
  k_samplerate := 48000
  k_note_mod_fscale := 8421505 / 2147483648
  k_note_max_hz := 23680
  osc_notehzf := fun _ => 8936727 / 2048
  osc_sinf := triangle
  q31_to_f32 := fun q => (q : ℚ) / 2 ^ 31
  f32_to_q31 := fun x => Int.floor (x * (2 ^ 31 - 1))

/-! ## Helper lemmas -/

theorem clipmaxf_le (x m : ℚ) : clipmaxf x m ≤ m := by
  unfold clipmaxf
  split_ifs with h
  · exact le_refl m
  · exact le_of_lt (not_le.mp h)

theorem clipminmaxf_eq_min_max (lo x hi : ℚ) (h : lo ≤ hi) :
    clipminmaxf lo x hi = min (max x lo) hi := by
  unfold clipminmaxf
  split_ifs with h1 h2
  · have : hi ≤ max x lo := le_trans h1 (le_max_left _ _)
    exact (min_eq_right this).symm
  · have h3 : max x lo = lo := max_eq_right h2
    rw [h3]
    exact (min_eq_left h).symm
  · have h1 : x < hi := not_le.mp h1
    have h2 : lo < x := not_le.mp h2
    rw [max_eq_left (le_of_lt h2), min_eq_left (le_of_lt h1)]

theorem clipminmaxf_unit_bounds (x : ℚ) :
    0 ≤ clipminmaxf PWM_MIN x PWM_MAX ∧ clipminmaxf PWM_MIN x PWM_MAX ≤ 1 := by
  unfold clipminmaxf PWM_MIN PWM_MAX
  split_ifs with h1 h2
  · exact ⟨by norm_num, le_refl _⟩
  · exact ⟨le_refl _, by norm_num⟩
  · exact ⟨le_of_lt (not_le.mp h2), le_of_lt (not_le.mp h1)⟩

theorem triangle_bounds (x : ℚ) : -1 ≤ triangle x ∧ triangle x ≤ 1 := by
  unfold triangle clipminmaxf
  split_ifs <;> constructor <;> linarith

/-- The frequency resolved by `State::sig` is at least 1. -/
theorem State.one_le_hz (env : Env) (s : State) (note mod : Nat) (lfo : ℚ) :
    1 ≤ (s.sig_locals env note mod lfo).hz := by
  simp only [State.sig_locals]
  split_ifs with h
  · exact le_refl _
  · exact not_lt.mp h

/-- The frequency resolved by `Sine2::sig` is at least 1. -/
theorem Sine2.one_le_sine_hz (env : Env) (s : Sine2) (note mod : Nat) (lfo : ℚ) :
    1 ≤ (s.sig_locals env note mod lfo).hz := by
  simp only [Sine2.sig_locals]
  split_ifs with h
  · exact le_refl _
  · exact not_lt.mp h

/-- A mix `t * sq + (1 - t) * y` of a square value and a value of `[-1, 1]` with a weight of
`[0, 1]` stays in `[-1, 1]`. -/
theorem mix_bounds (t sq y : ℚ) (ht0 : 0 ≤ t) (ht1 : t ≤ 1) (hsq : sq = 1 ∨ sq = -1)
    (hy0 : -1 ≤ y) (hy1 : y ≤ 1) :
    -1 ≤ t * sq + (1 - t) * y ∧ t * sq + (1 - t) * y ≤ 1 := by
  have h1 : 0 ≤ (1 - t) * (1 - y) := mul_nonneg (sub_nonneg.mpr ht1) (sub_nonneg.mpr hy1)
  have h2 : 0 ≤ (1 - t) * (y + 1) := mul_nonneg (sub_nonneg.mpr ht1) (by linarith)
  rcases hsq with h | h <;> subst h <;> constructor <;> nlinarith

/-- The square component computed by `State::sig` is `+1` or `-1`. -/
theorem State.square_val_cases (env : Env) (s : State) (note mod : Nat) (lfo : ℚ) :
    (s.sig_locals env note mod lfo).square_val = 1 ∨
      (s.sig_locals env note mod lfo).square_val = -1 := by
  have h : (s.sig_locals env note mod lfo).square_val
      = if ((s.sig_locals env note mod lfo).frame : ℚ) < (s.sig_locals env note mod lfo).frames_on
        then 1 else -1 := rfl
  rw [h]
  split_ifs
  · exact Or.inl rfl
  · exact Or.inr rfl

/-! ## The frequency resolver -/

/-- C1. Frequency resolver range: for every note, every mod and every note table, the frequency
`hz` computed at the top of `sig` in both variants lies in `[1, k_note_max_hz]`, provided the
constant `k_note_max_hz` is at least 1. -/
theorem hz_range (env : Env) (hmax : 1 ≤ env.k_note_max_hz) (s : State) (t : Sine2)
    (note mod : Nat) (lfo : ℚ) :
    (1 ≤ (s.sig_locals env note mod lfo).hz ∧
      (s.sig_locals env note mod lfo).hz ≤ env.k_note_max_hz) ∧
    (1 ≤ (t.sig_locals env note mod lfo).hz ∧
      (t.sig_locals env note mod lfo).hz ≤ env.k_note_max_hz) := by
  refine ⟨⟨State.one_le_hz env s note mod lfo, ?_⟩, ⟨Sine2.one_le_sine_hz env t note mod lfo, ?_⟩⟩
  · simp only [State.sig_locals]
    split_ifs with h
    · exact hmax
    · exact clipmaxf_le _ _
  · simp only [Sine2.sig_locals]
    split_ifs with h
    · exact hmax
    · exact clipmaxf_le _ _

theorem hz_range_witness :
    (1 ≤ ((⟨0, 1 / 2, 7⟩ : State).sig_locals Env.sample 69 128 0).hz ∧
      ((⟨0, 1 / 2, 7⟩ : State).sig_locals Env.sample 69 128 0).hz ≤ Env.sample.k_note_max_hz) ∧
    (1 ≤ ((⟨7⟩ : Sine2).sig_locals Env.sample 69 128 0).hz ∧
      ((⟨7⟩ : Sine2).sig_locals Env.sample 69 128 0).hz ≤ Env.sample.k_note_max_hz) :=
  hz_range Env.sample (by norm_num [Env.sample]) ⟨0, 1 / 2, 7⟩ ⟨7⟩ 69 128 0

/-! ## The output range of the blended generator -/

/-- C2. Blended output range: for every note, mod, lfo (of any size), frame counter and knob
state, `State::sig` returns a value in `[-1, 1]`, assuming only that the sine primitive returns
values in `[-1, 1]`. -/
theorem sqine_sig_range (env : Env)
    (hsin : ∀ x : ℚ, -1 ≤ env.osc_sinf x ∧ env.osc_sinf x ≤ 1)
    (s : State) (note mod : Nat) (lfo : ℚ) :
    -1 ≤ (s.sig env note mod lfo).1 ∧ (s.sig env note mod lfo).1 ≤ 1 := by
  obtain ⟨ht0, ht1⟩ := clipminmaxf_unit_bounds (s.blend + 1 / 2 * lfo)
  obtain ⟨hy0, hy1⟩ := hsin (s.sig_locals env note mod lfo).phase
  have hsq := State.square_val_cases env s note mod lfo
  have hret : (s.sig env note mod lfo).1
      = clipminmaxf PWM_MIN (s.blend + 1 / 2 * lfo) PWM_MAX * (s.sig_locals env note mod lfo).square_val
        + (1 - clipminmaxf PWM_MIN (s.blend + 1 / 2 * lfo) PWM_MAX)
          * env.osc_sinf (s.sig_locals env note mod lfo).phase := rfl
  rw [hret]
  exact mix_bounds _ _ _ ht0 ht1 hsq hy0 hy1

theorem sqine_sig_range_witness :
    -1 ≤ ((⟨1 / 4, 4 / 5, 30⟩ : State).sig Env.sample 69 0 3).1 ∧
      ((⟨1 / 4, 4 / 5, 30⟩ : State).sig Env.sample 69 0 3).1 ≤ 1 :=
  sqine_sig_range Env.sample triangle_bounds ⟨1 / 4, 4 / 5, 30⟩ 69 0 3

/-! ## The phase invariant after an evaluation -/

/-- With a positive sample rate the cycle length computed by `State::sig` is positive. -/
theorem State.frames_per_cycle_pos (env : Env) (hrate : 0 < env.k_samplerate) (s : State)
    (note mod : Nat) (lfo : ℚ) : 0 < (s.sig_locals env note mod lfo).frames_per_cycle := by
  have hz := State.one_le_hz env s note mod lfo
  have hr : (0 : ℚ) < env.k_samplerate := by exact_mod_cast hrate
  have : (s.sig_locals env note mod lfo).frames_per_cycle
      = (env.k_samplerate : ℚ) / (s.sig_locals env note mod lfo).hz := rfl
  rw [this]
  exact div_pos hr (by linarith)

/-- With a positive sample rate the cycle length computed by `Sine2::sig` is positive. -/
theorem Sine2.sine_frames_per_cycle_pos (env : Env) (hrate : 0 < env.k_samplerate) (s : Sine2)
    (note mod : Nat) (lfo : ℚ) : 0 < (s.sig_locals env note mod lfo).frames_per_cycle := by
  have hz := Sine2.one_le_sine_hz env s note mod lfo
  have hr : (0 : ℚ) < env.k_samplerate := by exact_mod_cast hrate
  have : (s.sig_locals env note mod lfo).frames_per_cycle
      = (env.k_samplerate : ℚ) / (s.sig_locals env note mod lfo).hz := rfl
  rw [this]
  exact div_pos hr (by linarith)

/-- The frame counter left by `State::sig` is the counter before the call, or 0 when that
counter had reached the cycle length. -/
theorem State.sig_frame_eq (env : Env) (s : State) (note mod : Nat) (lfo : ℚ) :
    (s.sig env note mod lfo).2.frame =
      if (s.frame : ℚ) ≥ (s.sig_locals env note mod lfo).frames_per_cycle then 0 else s.frame :=
  rfl

/-- The frame counter left by `Sine2::sig` is the counter before the call, or 0 when that
counter had reached the cycle length. -/
theorem Sine2.sig_frames_eq (env : Env) (s : Sine2) (note mod : Nat) (lfo : ℚ) :
    (s.sig env note mod lfo).2.frames =
      if (s.frames : ℚ) ≥ (s.sig_locals env note mod lfo).frames_per_cycle then 0 else s.frames :=
  rfl

/-- After `State::sig` the frame counter is below the cycle length. -/
theorem State.sig_frame_lt (env : Env) (hrate : 0 < env.k_samplerate) (s : State)
    (note mod : Nat) (lfo : ℚ) :
    ((s.sig env note mod lfo).2.frame : ℚ) < (s.sig_locals env note mod lfo).frames_per_cycle := by
  have hpos := State.frames_per_cycle_pos env hrate s note mod lfo
  rw [State.sig_frame_eq]
  split_ifs with h
  · simpa using hpos
  · exact not_le.mp h

/-- After `Sine2::sig` the frame counter is below the cycle length. -/
theorem Sine2.sig_frames_lt (env : Env) (hrate : 0 < env.k_samplerate) (s : Sine2)
    (note mod : Nat) (lfo : ℚ) :
    ((s.sig env note mod lfo).2.frames : ℚ)
      < (s.sig_locals env note mod lfo).frames_per_cycle := by
  have hpos := Sine2.sine_frames_per_cycle_pos env hrate s note mod lfo
  rw [Sine2.sig_frames_eq]
  split_ifs with h
  · simpa using hpos
  · exact not_le.mp h

/-- C3. Phase invariant after evaluation: with a positive sample rate, for every starting frame
counter, note and mod, the frame stored when `sig` returns satisfies
`0 <= frame < frames_per_cycle` with `frames_per_cycle = k_samplerate / hz`, and the argument
`frame / frames_per_cycle` passed to `osc_sinf` lies in `[0, 1)`; in both variants. -/
theorem phase_invariant_after_sig (env : Env) (hrate : 0 < env.k_samplerate) (s : State)
    (t : Sine2) (note mod : Nat) (lfo : ℚ) :
    ((s.sig_locals env note mod lfo).frames_per_cycle
        = (env.k_samplerate : ℚ) / (s.sig_locals env note mod lfo).hz ∧
      (0 : ℚ) ≤ ((s.sig env note mod lfo).2.frame : ℚ) ∧
      ((s.sig env note mod lfo).2.frame : ℚ) < (s.sig_locals env note mod lfo).frames_per_cycle ∧
      (s.sig_locals env note mod lfo).sine_val
        = env.osc_sinf (s.sig_locals env note mod lfo).phase ∧
      (s.sig_locals env note mod lfo).phase
        = ((s.sig env note mod lfo).2.frame : ℚ) / (s.sig_locals env note mod lfo).frames_per_cycle ∧
      0 ≤ (s.sig_locals env note mod lfo).phase ∧ (s.sig_locals env note mod lfo).phase < 1) ∧
    ((t.sig_locals env note mod lfo).frames_per_cycle
        = (env.k_samplerate : ℚ) / (t.sig_locals env note mod lfo).hz ∧
      (0 : ℚ) ≤ ((t.sig env note mod lfo).2.frames : ℚ) ∧
      ((t.sig env note mod lfo).2.frames : ℚ) < (t.sig_locals env note mod lfo).frames_per_cycle ∧
      (t.sig env note mod lfo).1 = env.osc_sinf (t.sig_locals env note mod lfo).phase ∧
      (t.sig_locals env note mod lfo).phase
        = ((t.sig env note mod lfo).2.frames : ℚ) / (t.sig_locals env note mod lfo).frames_per_cycle ∧
      0 ≤ (t.sig_locals env note mod lfo).phase ∧ (t.sig_locals env note mod lfo).phase < 1) := by
  have hs := State.sig_frame_lt env hrate s note mod lfo
  have ht := Sine2.sig_frames_lt env hrate t note mod lfo
  have hsp := State.frames_per_cycle_pos env hrate s note mod lfo
  have htp := Sine2.sine_frames_per_cycle_pos env hrate t note mod lfo
  have hse : (s.sig_locals env note mod lfo).phase
      = ((s.sig env note mod lfo).2.frame : ℚ) / (s.sig_locals env note mod lfo).frames_per_cycle :=
    rfl
  have hte : (t.sig_locals env note mod lfo).phase
      = ((t.sig env note mod lfo).2.frames : ℚ) / (t.sig_locals env note mod lfo).frames_per_cycle :=
    rfl
  refine ⟨⟨rfl, Nat.cast_nonneg _, hs, rfl, hse, ?_, ?_⟩, ⟨rfl, Nat.cast_nonneg _, ht, rfl, hte, ?_, ?_⟩⟩
  · rw [hse]; exact div_nonneg (Nat.cast_nonneg _) (le_of_lt hsp)
  · rw [hse]; exact (div_lt_one hsp).mpr hs
  · rw [hte]; exact div_nonneg (Nat.cast_nonneg _) (le_of_lt htp)
  · rw [hte]; exact (div_lt_one htp).mpr ht

theorem phase_invariant_after_sig_witness :
    0 < Env.sample.k_samplerate ∧
    (((⟨0, 1 / 2, 4000000000⟩ : State).sig Env.sample 69 0 0).2.frame : ℚ)
      < ((⟨0, 1 / 2, 4000000000⟩ : State).sig_locals Env.sample 69 0 0).frames_per_cycle ∧
    (((⟨77⟩ : Sine2).sig Env.sample 69 0 0).2.frames : ℚ)
      < ((⟨77⟩ : Sine2).sig_locals Env.sample 69 0 0).frames_per_cycle ∧
    ((⟨77⟩ : Sine2).sig_locals Env.sample 69 0 0).phase < 1 :=
  have h := phase_invariant_after_sig Env.sample (by decide) ⟨0, 1 / 2, 4000000000⟩ ⟨77⟩ 69 0 0
  ⟨by decide, h.1.2.2.1, h.2.2.2.1, h.2.2.2.2.2.2.2⟩

/-! ## The blended generator against the sine generator and the pure square -/

/-- C4. Blend 0 equals the sine variant: for every note, mod, pwm and frame counter,
`State::sig` of sqine with `blend = 0` and `lfo = 0` returns exactly the value that `Sine2::sig`
of sine2 returns for the same note, mod and frame counter (whatever lfo sine2 is given), and
both leave the same frame counter behind. -/
theorem blend_zero_eq_sine2 (env : Env) (pwm : ℚ) (frame note mod : Nat) (lfo2 : ℚ) :
    ((⟨pwm, 0, frame⟩ : State).sig env note mod 0).1
        = ((⟨frame⟩ : Sine2).sig env note mod lfo2).1 ∧
      ((⟨pwm, 0, frame⟩ : State).sig env note mod 0).2.frame
        = ((⟨frame⟩ : Sine2).sig env note mod lfo2).2.frames := by
  have hb : clipminmaxf PWM_MIN ((0 : ℚ) + 1 / 2 * 0) PWM_MAX = 0 := by
    norm_num [clipminmaxf, PWM_MIN, PWM_MAX]
  refine ⟨?_, rfl⟩
  simp only [State.sig, State.sig_locals, Sine2.sig, Sine2.sig_locals, hb]
  ring

/-- C5. Pure square at blend 1: for every note, mod and frame counter, `State::sig` with
`pwm = 0`, `blend = 1` and `lfo = 0` returns exactly `+1` when the frame counter it leaves (the
resynced one) is below `frames_per_cycle / 2` and exactly `-1` otherwise, for every sine
primitive. -/
theorem pure_square_at_blend_one (env : Env) (frame note mod : Nat) :
    ((⟨0, 1, frame⟩ : State).sig env note mod 0).1
      = if (((⟨0, 1, frame⟩ : State).sig env note mod 0).2.frame : ℚ)
            < ((⟨0, 1, frame⟩ : State).sig_locals env note mod 0).frames_per_cycle / 2
        then 1 else -1 := by
  have hb : clipminmaxf PWM_MIN ((1 : ℚ) + 1 / 2 * 0) PWM_MAX = 1 := by
    norm_num [clipminmaxf, PWM_MIN, PWM_MAX]
  simp only [State.sig, State.sig_locals, hb]
  simp only [mul_zero, add_zero, sub_self, zero_mul, one_mul]

/-! ## The effective blend -/

/-- C6. Effective blend: for every blend and lfo, `State::sig` returns
`eb * square + (1 - eb) * sine` with `eb = clamp(blend + 0.5 * lfo, 0, 1)`, and `0 <= eb <= 1`;
with `blend = 0.8` the effective blend is `0.3` for `lfo = -1` and `1` for `lfo = 1`. -/
theorem sig_effective_blend (env : Env) (s : State) (note mod : Nat) (lfo : ℚ) :
    (s.sig env note mod lfo).1
        = effective_blend s.blend lfo * (s.sig_locals env note mod lfo).square_val
          + (1 - effective_blend s.blend lfo) * (s.sig_locals env note mod lfo).sine_val ∧
      (s.sig_locals env note mod lfo).tmp_blend = effective_blend s.blend lfo ∧
      0 ≤ effective_blend s.blend lfo ∧ effective_blend s.blend lfo ≤ 1 ∧
      (({ s with blend := 4 / 5 } : State).sig_locals env note mod (-1)).tmp_blend = 3 / 10 ∧
      (({ s with blend := 4 / 5 } : State).sig_locals env note mod 1).tmp_blend = 1 := by
  have hclamp : ∀ b l : ℚ, clipminmaxf PWM_MIN (b + 1 / 2 * l) PWM_MAX = effective_blend b l := by
    intro b l
    have h := clipminmaxf_eq_min_max PWM_MIN (b + 1 / 2 * l) PWM_MAX (by norm_num [PWM_MIN, PWM_MAX])
    simpa [effective_blend, PWM_MIN, PWM_MAX] using h
  have htmp : ∀ (u : State) (l : ℚ),
      (u.sig_locals env note mod l).tmp_blend = effective_blend u.blend l :=
    fun u l => hclamp u.blend l
  have hret : (s.sig env note mod lfo).1
      = (s.sig_locals env note mod lfo).tmp_blend * (s.sig_locals env note mod lfo).square_val
        + (1 - (s.sig_locals env note mod lfo).tmp_blend)
          * (s.sig_locals env note mod lfo).sine_val := rfl
  have hb := clipminmaxf_unit_bounds (s.blend + 1 / 2 * lfo)
  rw [hclamp] at hb
  refine ⟨?_, htmp s lfo, hb.1, hb.2, ?_, ?_⟩
  · rw [hret, htmp]
  · rw [htmp]; norm_num [effective_blend]
  · rw [htmp]; norm_num [effective_blend]

/-! ## Resynchronisation -/

/-- C7. Immediate resync after a pitch rise: with a positive sample rate and `pwm >= 0`, when
the frame counter has reached the `frames_per_cycle` of the note and mod of the call, `sig` sets
it to 0 and evaluates the waveform at phase 0 (the sine primitive receives 0 and, in sqine, the
square component is `+1`); when the frame counter is below `frames_per_cycle` the call leaves it
unchanged.  In both variants. -/
theorem resync_after_pitch_rise (env : Env) (hrate : 0 < env.k_samplerate) (s : State)
    (hpwm : 0 ≤ s.pwm) (t : Sine2) (note mod : Nat) (lfo : ℚ) :
    ((s.sig_locals env note mod lfo).frames_per_cycle ≤ (s.frame : ℚ) →
        (s.sig env note mod lfo).2.frame = 0 ∧
        (s.sig_locals env note mod lfo).phase = 0 ∧
        (s.sig_locals env note mod lfo).sine_val = env.osc_sinf 0 ∧
        (s.sig_locals env note mod lfo).square_val = 1 ∧
        (s.sig env note mod lfo).1
          = (s.sig_locals env note mod lfo).tmp_blend * 1
            + (1 - (s.sig_locals env note mod lfo).tmp_blend) * env.osc_sinf 0) ∧
    ((s.frame : ℚ) < (s.sig_locals env note mod lfo).frames_per_cycle →
        (s.sig env note mod lfo).2.frame = s.frame) ∧
    ((t.sig_locals env note mod lfo).frames_per_cycle ≤ (t.frames : ℚ) →
        (t.sig env note mod lfo).2.frames = 0 ∧
        (t.sig_locals env note mod lfo).phase = 0 ∧
        (t.sig env note mod lfo).1 = env.osc_sinf 0) ∧
    ((t.frames : ℚ) < (t.sig_locals env note mod lfo).frames_per_cycle →
        (t.sig env note mod lfo).2.frames = t.frames) := by
  have hsp := State.frames_per_cycle_pos env hrate s note mod lfo
  refine ⟨?_, ?_, ?_, ?_⟩
  · intro h
    have hf : (s.sig_locals env note mod lfo).frame = 0 := by
      have := State.sig_frame_eq env s note mod lfo
      rw [if_pos h] at this
      exact this
    have hph : (s.sig_locals env note mod lfo).phase = 0 := by
      have : (s.sig_locals env note mod lfo).phase
          = ((s.sig_locals env note mod lfo).frame : ℚ)
            / (s.sig_locals env note mod lfo).frames_per_cycle := rfl
      rw [this, hf]; simp
    have hsine : (s.sig_locals env note mod lfo).sine_val = env.osc_sinf 0 := by
      have : (s.sig_locals env note mod lfo).sine_val
          = env.osc_sinf (s.sig_locals env note mod lfo).phase := rfl
      rw [this, hph]
    have hon : (0 : ℚ) < (s.sig_locals env note mod lfo).frames_on := by
      have : (s.sig_locals env note mod lfo).frames_on
          = (s.sig_locals env note mod lfo).frames_per_cycle / 2
            + (s.sig_locals env note mod lfo).frames_per_cycle / 2 * s.pwm := rfl
      rw [this]
      have := mul_nonneg (le_of_lt (half_pos hsp)) hpwm
      linarith [half_pos hsp]
    have hsq : (s.sig_locals env note mod lfo).square_val = 1 := by
      have : (s.sig_locals env note mod lfo).square_val
          = if ((s.sig_locals env note mod lfo).frame : ℚ)
              < (s.sig_locals env note mod lfo).frames_on then 1 else -1 := rfl
      rw [this, hf, if_pos (by simpa using hon)]
    have hret : (s.sig env note mod lfo).1
        = (s.sig_locals env note mod lfo).tmp_blend * (s.sig_locals env note mod lfo).square_val
          + (1 - (s.sig_locals env note mod lfo).tmp_blend)
            * (s.sig_locals env note mod lfo).sine_val := rfl
    exact ⟨hf, hph, hsine, hsq, by rw [hret, hsq, hsine]⟩
  · intro h
    rw [State.sig_frame_eq, if_neg (not_le.mpr h)]
  · intro h
    have hf : (t.sig_locals env note mod lfo).frames = 0 := by
      have := Sine2.sig_frames_eq env t note mod lfo
      rw [if_pos h] at this
      exact this
    have hph : (t.sig_locals env note mod lfo).phase = 0 := by
      have : (t.sig_locals env note mod lfo).phase
          = ((t.sig_locals env note mod lfo).frames : ℚ)
            / (t.sig_locals env note mod lfo).frames_per_cycle := rfl
      rw [this, hf]; simp
    have hret : (t.sig env note mod lfo).1
        = env.osc_sinf (t.sig_locals env note mod lfo).phase := rfl
    exact ⟨hf, hph, by rw [hret, hph]⟩
  · intro h
    rw [Sine2.sig_frames_eq, if_neg (not_le.mpr h)]

theorem resync_after_pitch_rise_witness :
    (0 < Env.sample.k_samplerate ∧ (0 : ℚ) ≤ (⟨0, 1 / 2, 200⟩ : State).pwm ∧
      ((⟨0, 1 / 2, 200⟩ : State).sig_locals Env.sample 0 0 0).frames_per_cycle
        ≤ (((⟨0, 1 / 2, 200⟩ : State).frame : Nat) : ℚ)) ∧
    (((⟨0, 1 / 2, 200⟩ : State).sig Env.sample 0 0 0).2.frame = 0 ∧
      ((⟨0, 1 / 2, 200⟩ : State).sig_locals Env.sample 0 0 0).phase = 0 ∧
      ((⟨0, 1 / 2, 200⟩ : State).sig_locals Env.sample 0 0 0).sine_val = Env.sample.osc_sinf 0 ∧
      ((⟨0, 1 / 2, 200⟩ : State).sig_locals Env.sample 0 0 0).square_val = 1 ∧
      ((⟨0, 1 / 2, 200⟩ : State).sig Env.sample 0 0 0).1
        = ((⟨0, 1 / 2, 200⟩ : State).sig_locals Env.sample 0 0 0).tmp_blend * 1
          + (1 - ((⟨0, 1 / 2, 200⟩ : State).sig_locals Env.sample 0 0 0).tmp_blend)
            * Env.sample.osc_sinf 0) :=
  have hfpc : ((⟨0, 1 / 2, 200⟩ : State).sig_locals Env.sample 0 0 0).frames_per_cycle
      ≤ (((⟨0, 1 / 2, 200⟩ : State).frame : Nat) : ℚ) := by
    norm_num [State.sig_locals, Env.sample, clipmaxf, linintf]
  have hpwm : (0 : ℚ) ≤ (⟨0, 1 / 2, 200⟩ : State).pwm := le_refl 0
  ⟨⟨by decide, hpwm, hfpc⟩,
    (resync_after_pitch_rise Env.sample (by decide) ⟨0, 1 / 2, 200⟩ hpwm ⟨200⟩ 0 0 0).1 hfpc⟩

/-! ## The phase invariant across `increment_frame` -/

/-- The cycle length computed by `State::sig` depends on the note and mod only. -/
theorem State.frames_per_cycle_indep (env : Env) (s u : State) (note mod : Nat) (lfo lfo2 : ℚ) :
    (s.sig_locals env note mod lfo).frames_per_cycle
      = (u.sig_locals env note mod lfo2).frames_per_cycle :=
  rfl

/-- The cycle length computed by `Sine2::sig` depends on the note and mod only. -/
theorem Sine2.sine_frames_per_cycle_indep (env : Env) (s u : Sine2) (note mod : Nat) (lfo lfo2 : ℚ) :
    (s.sig_locals env note mod lfo).frames_per_cycle
      = (u.sig_locals env note mod lfo2).frames_per_cycle :=
  rfl

/-- The method `State::increment_frame` raises the frame counter by at most one. -/
theorem State.increment_frame_le (env : Env) (s : State) :
    (s.increment_frame env).frame ≤ s.frame + 1 := by
  simp only [State.increment_frame]
  split_ifs
  · exact Nat.zero_le _
  · exact Nat.mod_le _ _

/-- The method `Sine2::increment_frame` raises the frame counter by at most one. -/
theorem Sine2.increment_frames_le (env : Env) (s : Sine2) :
    (s.increment_frame env).frames ≤ s.frames + 1 := by
  simp only [Sine2.increment_frame]
  split_ifs
  · exact Nat.zero_le _
  · exact Nat.mod_le _ _

/-- A counter that was below a bound and was raised by at most one is below the bound still, or
it is the old counter plus one and has reached the bound. -/
theorem step_lt_or_reached (old new : Nat) (bound : ℚ) (hold : (old : ℚ) < bound)
    (hstep : new ≤ old + 1) :
    (new : ℚ) < bound ∨ (new = old + 1 ∧ bound ≤ (new : ℚ)) := by
  by_cases h : (new : ℚ) < bound
  · exact Or.inl h
  · right
    have hb : bound ≤ (new : ℚ) := not_lt.mp h
    have hlt : (old : ℚ) < (new : ℚ) := lt_of_lt_of_le hold hb
    have hlt2 : old < new := by exact_mod_cast hlt
    exact ⟨by omega, hb⟩

/-- Counterexample for C8. At 48 kHz and 440 Hz (`frames_per_cycle = 1200 / 11`, about 109.09),
`sig` leaves the frame counter 109 as it is, the `increment_frame` that follows in `OSC_CYCLE`
stores 110 without wrapping at `k_samplerate`, and 110 is not below `frames_per_cycle`.  The
same happens in sine2 when `increment_frame` is called with the counter 109 left by `sig`. -/
theorem phase_invariant_fails_after_increment :
    ((⟨0, 1 / 2, 109⟩ : State).sig Env.sample 0 0 0).2.frame = 109 ∧
    (((⟨0, 1 / 2, 109⟩ : State).sig Env.sample 0 0 0).2.frame + 1) % 2 ^ 32
      < Env.sample.k_samplerate ∧
    (((⟨0, 1 / 2, 109⟩ : State).sig Env.sample 0 0 0).2.increment_frame Env.sample).frame = 110 ∧
    ¬ (((((⟨0, 1 / 2, 109⟩ : State).sig Env.sample 0 0 0).2.increment_frame Env.sample).frame : ℚ)
        < ((⟨0, 1 / 2, 109⟩ : State).sig_locals Env.sample 0 0 0).frames_per_cycle) ∧
    ((⟨109⟩ : Sine2).sig Env.sample 0 0 0).2.frames = 109 ∧
    ((((⟨109⟩ : Sine2).sig Env.sample 0 0 0).2.frames + 1) % 2 ^ 32 < Env.sample.k_samplerate) ∧
    ¬ (((((⟨109⟩ : Sine2).sig Env.sample 0 0 0).2.increment_frame Env.sample).frames : ℚ)
        < ((⟨109⟩ : Sine2).sig_locals Env.sample 0 0 0).frames_per_cycle) := by
  have hs : ((⟨0, 1 / 2, 109⟩ : State).sig Env.sample 0 0 0).2.frame = 109 := by
    norm_num [State.sig, State.sig_locals, Env.sample, clipmaxf, linintf]
  have ht : ((⟨109⟩ : Sine2).sig Env.sample 0 0 0).2.frames = 109 := by
    norm_num [Sine2.sig, Sine2.sig_locals, Env.sample, clipmaxf, linintf]
  have hs2 : (((⟨0, 1 / 2, 109⟩ : State).sig Env.sample 0 0 0).2.increment_frame
      Env.sample).frame = 110 := by
    norm_num [State.sig, State.increment_frame, State.sig_locals, Env.sample, clipmaxf, linintf]
  have ht2 : (((⟨109⟩ : Sine2).sig Env.sample 0 0 0).2.increment_frame
      Env.sample).frames = 110 := by
    norm_num [Sine2.sig, Sine2.increment_frame, Sine2.sig_locals, Env.sample, clipmaxf, linintf]
  have hfs : ((⟨0, 1 / 2, 109⟩ : State).sig_locals Env.sample 0 0 0).frames_per_cycle
      = 1200 / 11 := by
    norm_num [State.sig_locals, Env.sample, clipmaxf, linintf]
  have hft : ((⟨109⟩ : Sine2).sig_locals Env.sample 0 0 0).frames_per_cycle = 1200 / 11 := by
    norm_num [Sine2.sig_locals, Env.sample, clipmaxf, linintf]
  refine ⟨hs, ?_, hs2, ?_, ht, ?_, ?_⟩
  · rw [hs]; decide
  · rw [hs2, hfs]; norm_num
  · rw [ht]; decide
  · rw [ht2, hft]; norm_num

/-- C8, amended. With a positive sample rate and a fixed note and mod, in both variants: after
every `sig` the stored frame satisfies `0 <= frame < frames_per_cycle`; the `increment_frame`
that follows a `sig` raises the counter by at most one, so that afterwards either
`frame < frames_per_cycle` still holds (as it does when `increment_frame` wraps to 0), or the
counter is the old one plus one and has reached the end of the cycle
(`frames_per_cycle <= frame < frames_per_cycle + 1`); the `sig` after that restores
`frame < frames_per_cycle`. -/
theorem phase_invariant_in_cycle (env : Env) (hrate : 0 < env.k_samplerate) (s : State)
    (t : Sine2) (note mod : Nat) (lfo : ℚ) :
    (((s.sig env note mod lfo).2.frame : ℚ) < (s.sig_locals env note mod lfo).frames_per_cycle ∧
      ((((s.sig env note mod lfo).2.increment_frame env).frame : ℚ)
          < (s.sig_locals env note mod lfo).frames_per_cycle ∨
        (((s.sig env note mod lfo).2.increment_frame env).frame
            = (s.sig env note mod lfo).2.frame + 1 ∧
          (s.sig_locals env note mod lfo).frames_per_cycle
            ≤ (((s.sig env note mod lfo).2.increment_frame env).frame : ℚ))) ∧
      ((((s.sig env note mod lfo).2.increment_frame env).frame : ℚ)
          < (s.sig_locals env note mod lfo).frames_per_cycle + 1) ∧
      (((((s.sig env note mod lfo).2.increment_frame env).sig env note mod lfo).2.frame : ℚ)
          < (s.sig_locals env note mod lfo).frames_per_cycle)) ∧
    (((t.sig env note mod lfo).2.frames : ℚ) < (t.sig_locals env note mod lfo).frames_per_cycle ∧
      ((((t.sig env note mod lfo).2.increment_frame env).frames : ℚ)
          < (t.sig_locals env note mod lfo).frames_per_cycle ∨
        (((t.sig env note mod lfo).2.increment_frame env).frames
            = (t.sig env note mod lfo).2.frames + 1 ∧
          (t.sig_locals env note mod lfo).frames_per_cycle
            ≤ (((t.sig env note mod lfo).2.increment_frame env).frames : ℚ))) ∧
      ((((t.sig env note mod lfo).2.increment_frame env).frames : ℚ)
          < (t.sig_locals env note mod lfo).frames_per_cycle + 1) ∧
      (((((t.sig env note mod lfo).2.increment_frame env).sig env note mod lfo).2.frames : ℚ)
          < (t.sig_locals env note mod lfo).frames_per_cycle)) := by
  have hs := State.sig_frame_lt env hrate s note mod lfo
  have ht := Sine2.sig_frames_lt env hrate t note mod lfo
  have hsi := State.increment_frame_le env (s.sig env note mod lfo).2
  have hti := Sine2.increment_frames_le env (t.sig env note mod lfo).2
  have hsi2 : ((((s.sig env note mod lfo).2.increment_frame env).frame : ℚ))
      ≤ ((s.sig env note mod lfo).2.frame : ℚ) + 1 := by exact_mod_cast hsi
  have hti2 : ((((t.sig env note mod lfo).2.increment_frame env).frames : ℚ))
      ≤ ((t.sig env note mod lfo).2.frames : ℚ) + 1 := by exact_mod_cast hti
  refine ⟨⟨hs, step_lt_or_reached _ _ _ hs hsi, by linarith, ?_⟩,
    ⟨ht, step_lt_or_reached _ _ _ ht hti, by linarith, ?_⟩⟩
  · have := State.sig_frame_lt env hrate ((s.sig env note mod lfo).2.increment_frame env)
      note mod lfo
    rwa [State.frames_per_cycle_indep env _ s note mod lfo lfo] at this
  · have := Sine2.sig_frames_lt env hrate ((t.sig env note mod lfo).2.increment_frame env)
      note mod lfo
    rwa [Sine2.sine_frames_per_cycle_indep env _ t note mod lfo lfo] at this

theorem phase_invariant_in_cycle_witness :
    0 < Env.sample.k_samplerate ∧
    ((((⟨0, 1 / 2, 109⟩ : State).sig Env.sample 0 0 0).2.increment_frame Env.sample).frame : ℚ)
      < ((⟨0, 1 / 2, 109⟩ : State).sig_locals Env.sample 0 0 0).frames_per_cycle + 1 ∧
    ((((⟨109⟩ : Sine2).sig Env.sample 0 0 0).2.increment_frame Env.sample).frames : ℚ)
      < ((⟨109⟩ : Sine2).sig_locals Env.sample 0 0 0).frames_per_cycle + 1 :=
  have h := phase_invariant_in_cycle Env.sample (by decide) ⟨0, 1 / 2, 109⟩ ⟨109⟩ 0 0 0
  ⟨by decide, h.1.2.2.1, h.2.2.2.1⟩

/-! ## The knobs -/

/-- The method `State::increment_frame` leaves the knobs as they are. -/
theorem State.increment_frame_knobs (env : Env) (s : State) :
    (s.increment_frame env).pwm = s.pwm ∧ (s.increment_frame env).blend = s.blend := by
  simp only [State.increment_frame]
  split_ifs <;> exact ⟨rfl, rfl⟩

/-- The loop of `OSC_CYCLE` leaves the knobs as they are, for every block length. -/
theorem State.cycle_loop_knobs (env : Env) (note mod : Nat) (lfo : ℚ) (frames : Nat) :
    ∀ s : State, (State.cycle_loop env note mod lfo frames s).2.pwm = s.pwm ∧
      (State.cycle_loop env note mod lfo frames s).2.blend = s.blend := by
  induction frames with
  | zero => intro s; exact ⟨rfl, rfl⟩
  | succ n ih =>
    intro s
    have hstep := ih ((s.sig env note mod lfo).2.increment_frame env)
    have hinc := State.increment_frame_knobs env (s.sig env note mod lfo).2
    have hunf : (State.cycle_loop env note mod lfo (n + 1) s).2
        = (State.cycle_loop env note mod lfo n
            ((s.sig env note mod lfo).2.increment_frame env)).2 := rfl
    rw [hunf]
    exact ⟨hstep.1.trans hinc.1, hstep.2.trans hinc.2⟩

/-- C9. Knobs are changed only by parameter events: for every state of the blended variant,
`note_on`, `increment_frame` and `sig`, and with them `OSC_NOTEON`, `OSC_NOTEOFF` and `OSC_CYCLE`
for every block length, leave `pwm` and `blend` exactly as they were; `note_on` changes only
`frame`, setting it to 0. -/
theorem knobs_untouched_outside_params (env : Env) (s : State) (note mod : Nat) (lfo : ℚ)
    (params : user_osc_param_t) (frames : Nat) :
    s.note_on = { s with frame := 0 } ∧
    (s.note_on.pwm = s.pwm ∧ s.note_on.blend = s.blend ∧ s.note_on.frame = 0) ∧
    ((s.increment_frame env).pwm = s.pwm ∧ (s.increment_frame env).blend = s.blend) ∧
    ((s.sig env note mod lfo).2.pwm = s.pwm ∧ (s.sig env note mod lfo).2.blend = s.blend) ∧
    ((s.OSC_NOTEON params).pwm = s.pwm ∧ (s.OSC_NOTEON params).blend = s.blend ∧
      (s.OSC_NOTEON params).frame = 0) ∧
    s.OSC_NOTEOFF params = s ∧
    ((s.OSC_CYCLE env params frames).2.pwm = s.pwm ∧
      (s.OSC_CYCLE env params frames).2.blend = s.blend) :=
  ⟨rfl, ⟨rfl, rfl, rfl⟩, State.increment_frame_knobs env s, ⟨rfl, rfl⟩, ⟨rfl, rfl, rfl⟩, rfl,
    State.cycle_loop_knobs env _ _ _ frames s⟩

/-- Every single call keeps the knobs within `[0, 1]`. -/
theorem Op.apply_knobs_in_range (env : Env) (s : State) (h : s.knobs_in_range) (op : Op) :
    (op.apply env s).knobs_in_range := by
  cases op with
  | init =>
    exact ⟨clipminmaxf_unit_bounds 0, clipminmaxf_unit_bounds (1 / 2)⟩
  | note_on => exact h
  | set_blend v => exact ⟨h.1, clipminmaxf_unit_bounds v⟩
  | set_pwm v => exact ⟨clipminmaxf_unit_bounds v, h.2⟩
  | increment_frame =>
    have hk := State.increment_frame_knobs env s
    unfold State.knobs_in_range
    simp only [Op.apply]
    rw [hk.1, hk.2]
    exact h
  | sig note mod lfo => exact h

/-- A sequence of calls keeps the knobs within `[0, 1]`. -/
theorem foldl_knobs_in_range (env : Env) (ops : List Op) :
    ∀ s : State, s.knobs_in_range → (ops.foldl (Op.apply env) s).knobs_in_range := by
  induction ops with
  | nil => intro s h; exact h
  | cons op rest ih =>
    intro s h
    exact ih (op.apply env s) (Op.apply_knobs_in_range env s h op)

/-- C10. Setters clamp: for every value `v`, `set_pwm(v)` stores `min(max(v, 0), 1)` in `pwm`
and `set_blend(v)` stores `min(max(v, 0), 1)` in `blend`; the stored knob lies in `[0, 1]` and
equals `v` whenever `v` is in `[0, 1]`; and in every state reached from the constructor by any
sequence of calls, `0 <= pwm <= 1` and `0 <= blend <= 1`. -/
theorem setters_clamp (env : Env) (s s0 : State) (v : ℚ) (ops : List Op) :
    (s.set_pwm v).pwm = min (max v 0) 1 ∧
    (s.set_blend v).blend = min (max v 0) 1 ∧
    (0 ≤ (s.set_pwm v).pwm ∧ (s.set_pwm v).pwm ≤ 1) ∧
    (0 ≤ (s.set_blend v).blend ∧ (s.set_blend v).blend ≤ 1) ∧
    (0 ≤ v ∧ v ≤ 1 → (s.set_pwm v).pwm = v ∧ (s.set_blend v).blend = v) ∧
    ((0 ≤ (State.run env s0 ops).pwm ∧ (State.run env s0 ops).pwm ≤ 1) ∧
      (0 ≤ (State.run env s0 ops).blend ∧ (State.run env s0 ops).blend ≤ 1)) := by
  have hclamp : clipminmaxf PWM_MIN v PWM_MAX = min (max v 0) 1 := by
    have h := clipminmaxf_eq_min_max PWM_MIN v PWM_MAX (by norm_num [PWM_MIN, PWM_MAX])
    simpa [PWM_MIN, PWM_MAX] using h
  have hp : (s.set_pwm v).pwm = clipminmaxf PWM_MIN v PWM_MAX := rfl
  have hb : (s.set_blend v).blend = clipminmaxf PWM_MIN v PWM_MAX := rfl
  have hinit : (s0.init).knobs_in_range :=
    ⟨clipminmaxf_unit_bounds 0, clipminmaxf_unit_bounds (1 / 2)⟩
  refine ⟨hp.trans hclamp, hb.trans hclamp, ?_, ?_, ?_, foldl_knobs_in_range env ops _ hinit⟩
  · rw [hp]; exact clipminmaxf_unit_bounds v
  · rw [hb]; exact clipminmaxf_unit_bounds v
  · rintro ⟨h0, h1⟩
    have : min (max v 0) 1 = v := by rw [max_eq_left h0, min_eq_left h1]
    exact ⟨(hp.trans hclamp).trans this, (hb.trans hclamp).trans this⟩

theorem setters_clamp_witness :
    ((0 : ℚ) ≤ 3 / 4 ∧ (3 / 4 : ℚ) ≤ 1) ∧
    ((⟨0, 0, 5⟩ : State).set_pwm (3 / 4)).pwm = 3 / 4 ∧
    ((⟨0, 0, 5⟩ : State).set_blend (3 / 4)).blend = 3 / 4 :=
  have hv : (0 : ℚ) ≤ 3 / 4 ∧ (3 / 4 : ℚ) ≤ 1 := by norm_num
  have h := (setters_clamp Env.sample ⟨0, 0, 5⟩ ⟨9, 9, 9⟩ (3 / 4)
    [Op.set_pwm 7, Op.sig 69 0 0, Op.increment_frame]).2.2.2.2.1 hv
  ⟨hv, h.1, h.2⟩

/-! ## Parameter changes -/

/-- Membership in `pwm_labels` is the condition of the second branch of `State.OSC_PARAM`. -/
theorem ParamEnv.mem_pwm_labels (penv : ParamEnv) (index : Nat) :
    index ∈ penv.pwm_labels ↔
      (index = penv.k_osc_param_id1 ∨ index = penv.k_osc_param_id2 ∨
        index = penv.k_osc_param_id3 ∨ index = penv.k_osc_param_id4 ∨
        index = penv.k_osc_param_id5 ∨ index = penv.k_osc_param_id6 ∨
        index = penv.k_osc_param_shiftshape) := by
  simp [ParamEnv.pwm_labels]

/-- The clamp of the setters is `min (max v 0) 1`. -/
theorem clipminmaxf_unit_eq (v : ℚ) : clipminmaxf PWM_MIN v PWM_MAX = min (max v 0) 1 := by
  have h := clipminmaxf_eq_min_max PWM_MIN v PWM_MAX (by norm_num [PWM_MIN, PWM_MAX])
  simpa [PWM_MIN, PWM_MAX] using h

/-- C11. Parameter-Change touches exactly one field.  In the blended variant, with the labels of
the `switch` distinct as C++ requires, `OSC_PARAM` with index `k_osc_param_shape` changes only
`blend` (to the clamped value) and leaves `pwm` and `frame` unchanged; with one of the indices
`k_osc_param_id1` .. `k_osc_param_id6` or `k_osc_param_shiftshape` it changes only `pwm` and
leaves `blend` and `frame` unchanged; with any other index the state is unchanged.  In the sine
variant `OSC_PARAM` leaves the state unchanged for every index and value. -/
theorem osc_param_touches_one_field (penv : ParamEnv)
    (hlabels : penv.k_osc_param_shape ∉ penv.pwm_labels)
    (s : State) (t : Sine2) (index value : Nat) :
    State.OSC_PARAM penv s penv.k_osc_param_shape value
        = { s with blend := min (max (penv.param_val_to_f32 value) 0) 1 } ∧
    (index ∈ penv.pwm_labels →
        State.OSC_PARAM penv s index value
          = { s with pwm := min (max (penv.param_val_to_f32 value) 0) 1 }) ∧
    (index ≠ penv.k_osc_param_shape ∧ index ∉ penv.pwm_labels →
        State.OSC_PARAM penv s index value = s) ∧
    Sine2.OSC_PARAM penv t index value = t := by
  refine ⟨?_, ?_, ?_, rfl⟩
  · simp only [State.OSC_PARAM, if_true, State.set_blend, clipminmaxf_unit_eq]
  · intro hmem
    have hne : index ≠ penv.k_osc_param_shape := by
      intro h
      exact hlabels (h ▸ hmem)
    have hcond := (ParamEnv.mem_pwm_labels penv index).mp hmem
    simp only [State.OSC_PARAM, if_neg hne, if_pos hcond, State.set_pwm, clipminmaxf_unit_eq]
  · rintro ⟨hne, hnot⟩
    have hcond := mt (ParamEnv.mem_pwm_labels penv index).mpr hnot
    simp only [State.OSC_PARAM, if_neg hne, if_neg hcond]

theorem osc_param_touches_one_field_witness :
    (ParamEnv.sample.k_osc_param_shape ∉ ParamEnv.sample.pwm_labels ∧
      3 ∈ ParamEnv.sample.pwm_labels) ∧
    State.OSC_PARAM ParamEnv.sample ⟨1 / 4, 1 / 2, 17⟩ 3 2046
      = { (⟨1 / 4, 1 / 2, 17⟩ : State) with
          pwm := min (max (ParamEnv.sample.param_val_to_f32 2046) 0) 1 } :=
  have hl : ParamEnv.sample.k_osc_param_shape ∉ ParamEnv.sample.pwm_labels := by decide
  have hm : 3 ∈ ParamEnv.sample.pwm_labels := by decide
  ⟨⟨hl, hm⟩, (osc_param_touches_one_field ParamEnv.sample hl ⟨1 / 4, 1 / 2, 17⟩ ⟨17⟩ 3 2046).2.1 hm⟩

/-! ## Initialisation and note-on -/

/-- C12. Initialize resets to defaults: from every prior state, `init` and `OSC_INIT` of the
blended variant yield exactly `frame = 0`, `blend = 0.5`, `pwm = 0.0`, and `init` and `OSC_INIT`
of the sine variant yield `frames = 0`, whatever the prior state and the `platform` and `api`
arguments. -/
theorem init_resets_to_defaults (s : State) (t : Sine2) (platform api : Nat) :
    s.init = { pwm := 0, blend := 1 / 2, frame := 0 } ∧
    s.OSC_INIT platform api = { pwm := 0, blend := 1 / 2, frame := 0 } ∧
    t.init = { frames := 0 } ∧
    t.OSC_INIT platform api = { frames := 0 } := by
  have h : s.init = { pwm := 0, blend := 1 / 2, frame := 0 } := by
    simp only [State.init, State.set_blend, State.set_pwm, clipminmaxf_unit_eq]
    norm_num
  exact ⟨h, h, rfl, rfl⟩

/-- C13. Note-On is idempotent: for every state of either variant, `note_on` applied twice gives
exactly the state that `note_on` applied once gives, and in that state the frame counter is 0;
so for the entry point `OSC_NOTEON`. -/
theorem note_on_idempotent (s : State) (t : Sine2) (params params2 : user_osc_param_t) :
    (s.note_on.note_on = s.note_on ∧ s.note_on.frame = 0) ∧
    (t.note_on.note_on = t.note_on ∧ t.note_on.frames = 0) ∧
    ((s.OSC_NOTEON params).OSC_NOTEON params2 = s.OSC_NOTEON params ∧
      (s.OSC_NOTEON params).frame = 0) ∧
    ((t.OSC_NOTEON params).OSC_NOTEON params2 = t.OSC_NOTEON params ∧
      (t.OSC_NOTEON params).frames = 0) :=
  ⟨⟨rfl, rfl⟩, ⟨rfl, rfl⟩, ⟨rfl, rfl⟩, ⟨rfl, rfl⟩⟩

/-! ## Zero modulation -/

/-- C14. Zero modulation selects the table frequency: with `mod = 0`, for every note whose table
frequency lies in `[1, k_note_max_hz]`, the `hz` resolved in `sig` of both variants equals
`freq(note)`, whatever `freq(note + 1)` and the modulation scale are. -/
theorem zero_mod_selects_table_hz (env : Env) (s : State) (t : Sine2) (note : Nat) (lfo : ℚ)
    (hlo : 1 ≤ env.osc_notehzf note) (hhi : env.osc_notehzf note ≤ env.k_note_max_hz) :
    (s.sig_locals env note 0 lfo).hz = env.osc_notehzf note ∧
    (t.sig_locals env note 0 lfo).hz = env.osc_notehzf note := by
  have hlin : linintf (((0 : Nat) : ℚ) * env.k_note_mod_fscale) (env.osc_notehzf note)
      (env.osc_notehzf (note + 1)) = env.osc_notehzf note := by
    simp [linintf]
  have hclip : clipmaxf (env.osc_notehzf note) env.k_note_max_hz = env.osc_notehzf note := by
    unfold clipmaxf
    split_ifs with h
    · exact le_antisymm h hhi
    · rfl
  constructor
  · simp only [State.sig_locals, hlin, hclip, if_neg (not_lt.mpr hlo)]
  · simp only [Sine2.sig_locals, hlin, hclip, if_neg (not_lt.mpr hlo)]

theorem zero_mod_selects_table_hz_witness :
    ((1 : ℚ) ≤ Env.sample.osc_notehzf 69 ∧ Env.sample.osc_notehzf 69 ≤ Env.sample.k_note_max_hz) ∧
    ((⟨0, 1 / 2, 3⟩ : State).sig_locals Env.sample 69 0 0).hz = Env.sample.osc_notehzf 69 ∧
    ((⟨3⟩ : Sine2).sig_locals Env.sample 69 0 0).hz = Env.sample.osc_notehzf 69 :=
  have hlo : (1 : ℚ) ≤ Env.sample.osc_notehzf 69 := by norm_num [Env.sample]
  have hhi : Env.sample.osc_notehzf 69 ≤ Env.sample.k_note_max_hz := by norm_num [Env.sample]
  ⟨⟨hlo, hhi⟩, zero_mod_selects_table_hz Env.sample ⟨0, 1 / 2, 3⟩ ⟨3⟩ 69 0 hlo hhi⟩

/-! ## The sine variant and the LFO -/

/-- The loop of `OSC_CYCLE` in sine2.cpp gives the same samples and the same final state for
any two lfo values. -/
theorem Sine2.cycle_loop_lfo (env : Env) (note mod : Nat) (lfo1 lfo2 : ℚ) (frames : Nat) :
    ∀ s : Sine2, Sine2.cycle_loop env note mod lfo1 frames s
      = Sine2.cycle_loop env note mod lfo2 frames s := by
  induction frames with
  | zero => intro s; rfl
  | succ n ih =>
    intro s
    simp only [Sine2.cycle_loop]
    rw [ih]
    rfl

/-- C15. The sine variant ignores the LFO: for every note, mod, frame counter and any two lfo
values, `Sine2::sig` returns the same sample and leaves the same frame counter; and the samples
written by `OSC_CYCLE` of sine2, with the state it leaves, do not depend on `shape_lfo`. -/
theorem sine2_ignores_lfo (env : Env) (t : Sine2) (note mod : Nat) (lfo1 lfo2 : ℚ)
    (shape_lfo1 shape_lfo2 : Int) (pitch frames : Nat) :
    Sine2.sig env t note mod lfo1 = Sine2.sig env t note mod lfo2 ∧
    Sine2.OSC_CYCLE env t { shape_lfo := shape_lfo1, pitch := pitch } frames
      = Sine2.OSC_CYCLE env t { shape_lfo := shape_lfo2, pitch := pitch } frames :=
  ⟨rfl, Sine2.cycle_loop_lfo env _ _ _ _ frames t⟩

/-! ## Full pulse width -/

/-- With `pwm = 1` and a positive sample rate the square component of `State::sig` is `+1`. -/
theorem State.square_val_full_width (env : Env) (hrate : 0 < env.k_samplerate) (s : State)
    (hpwm : s.pwm = 1) (note mod : Nat) (lfo : ℚ) :
    (s.sig_locals env note mod lfo).frames_on = (s.sig_locals env note mod lfo).frames_per_cycle ∧
      (s.sig_locals env note mod lfo).square_val = 1 := by
  have hon : (s.sig_locals env note mod lfo).frames_on
      = (s.sig_locals env note mod lfo).frames_per_cycle := by
    have : (s.sig_locals env note mod lfo).frames_on
        = (s.sig_locals env note mod lfo).frames_per_cycle / 2
          + (s.sig_locals env note mod lfo).frames_per_cycle / 2 * s.pwm := rfl
    rw [this, hpwm]
    ring
  have hlt : ((s.sig_locals env note mod lfo).frame : ℚ)
      < (s.sig_locals env note mod lfo).frames_on := by
    rw [hon]
    exact State.sig_frame_lt env hrate s note mod lfo
  have hsq : (s.sig_locals env note mod lfo).square_val
      = if ((s.sig_locals env note mod lfo).frame : ℚ)
          < (s.sig_locals env note mod lfo).frames_on then 1 else -1 := rfl
  exact ⟨hon, by rw [hsq, if_pos hlt]⟩

/-- With `pwm = 1`, `blend = 1`, `lfo = 0` and a positive sample rate `State::sig` returns 1. -/
theorem State.sig_full_width (env : Env) (hrate : 0 < env.k_samplerate) (s : State)
    (hpwm : s.pwm = 1) (hblend : s.blend = 1) (note mod : Nat) :
    (s.sig env note mod 0).1 = 1 := by
  have hsq := (State.square_val_full_width env hrate s hpwm note mod 0).2
  have hret : (s.sig env note mod 0).1
      = clipminmaxf PWM_MIN (s.blend + 1 / 2 * 0) PWM_MAX * (s.sig_locals env note mod 0).square_val
        + (1 - clipminmaxf PWM_MIN (s.blend + 1 / 2 * 0) PWM_MAX)
          * (s.sig_locals env note mod 0).sine_val := rfl
  have hb : clipminmaxf PWM_MIN (s.blend + 1 / 2 * 0) PWM_MAX = 1 := by
    rw [hblend]
    norm_num [clipminmaxf, PWM_MIN, PWM_MAX]
  rw [hret, hb, hsq]
  ring

/-- With `pwm = 1`, `blend = 1`, `lfo = 0` every sample of the loop of `OSC_CYCLE` is the
quantized `+1`. -/
theorem State.cycle_loop_full_width (env : Env) (hrate : 0 < env.k_samplerate) (note mod : Nat)
    (frames : Nat) :
    ∀ s : State, s.pwm = 1 → s.blend = 1 →
      (State.cycle_loop env note mod 0 frames s).1 = List.replicate frames (env.f32_to_q31 1) := by
  induction frames with
  | zero => intro s _ _; rfl
  | succ n ih =>
    intro s hpwm hblend
    have hk := State.increment_frame_knobs env (s.sig env note mod 0).2
    have hnext := ih ((s.sig env note mod 0).2.increment_frame env)
      (hk.1.trans hpwm) (hk.2.trans hblend)
    have hunf : (State.cycle_loop env note mod 0 (n + 1) s).1
        = env.f32_to_q31 (s.sig env note mod 0).1
          :: (State.cycle_loop env note mod 0 n
              ((s.sig env note mod 0).2.increment_frame env)).1 := rfl
    rw [hunf, hnext, State.sig_full_width env hrate s hpwm hblend note mod]
    rfl

/-- C16. Full pulse width is constant high: with `pwm = 1` and a positive sample rate, for every
note, mod and frame counter, `frames_on` equals `frames_per_cycle` and the square component
computed in `State::sig` is `+1`; so with `blend = 1` and `lfo = 0` every sample returned is
exactly `+1`, and every sample written by the loop of `OSC_CYCLE` is the quantized `+1`. -/
theorem full_pulse_width_constant_high (env : Env) (hrate : 0 < env.k_samplerate)
    (blend lfo : ℚ) (frame note mod frames : Nat) :
    ((⟨1, blend, frame⟩ : State).sig_locals env note mod lfo).frames_on
      = ((⟨1, blend, frame⟩ : State).sig_locals env note mod lfo).frames_per_cycle ∧
    ((⟨1, blend, frame⟩ : State).sig_locals env note mod lfo).square_val = 1 ∧
    ((⟨1, 1, frame⟩ : State).sig env note mod 0).1 = 1 ∧
    (State.cycle_loop env note mod 0 frames ⟨1, 1, frame⟩).1
      = List.replicate frames (env.f32_to_q31 1) :=
  ⟨(State.square_val_full_width env hrate ⟨1, blend, frame⟩ rfl note mod lfo).1,
    (State.square_val_full_width env hrate ⟨1, blend, frame⟩ rfl note mod lfo).2,
    State.sig_full_width env hrate ⟨1, 1, frame⟩ rfl rfl note mod,
    State.cycle_loop_full_width env hrate note mod frames ⟨1, 1, frame⟩ rfl rfl⟩

theorem full_pulse_width_constant_high_witness :
    0 < Env.sample.k_samplerate ∧
    ((⟨1, 1, 100⟩ : State).sig Env.sample 69 7 0).1 = 1 ∧
    (State.cycle_loop Env.sample 69 7 0 5 ⟨1, 1, 100⟩).1
      = List.replicate 5 (Env.sample.f32_to_q31 1) :=
  have h := full_pulse_width_constant_high Env.sample (by decide) (1 / 3) (-2) 100 69 7 5
  ⟨by decide, h.2.2.1, h.2.2.2⟩

/-! ## The output range of the sine generator -/

/-- With a positive sample rate the argument that `Sine2::sig` passes to `osc_sinf` lies in
`[0, 1)`. -/
theorem Sine2.phase_range (env : Env) (hrate : 0 < env.k_samplerate) (t : Sine2)
    (note mod : Nat) (lfo : ℚ) :
    0 ≤ (t.sig_locals env note mod lfo).phase ∧ (t.sig_locals env note mod lfo).phase < 1 := by
  have hpos := Sine2.sine_frames_per_cycle_pos env hrate t note mod lfo
  have hlt := Sine2.sig_frames_lt env hrate t note mod lfo
  have hph : (t.sig_locals env note mod lfo).phase
      = ((t.sig env note mod lfo).2.frames : ℚ) / (t.sig_locals env note mod lfo).frames_per_cycle :=
    rfl
  rw [hph]
  exact ⟨div_nonneg (Nat.cast_nonneg _) (le_of_lt hpos), (div_lt_one hpos).mpr hlt⟩

/-- C17. Sine output range: with a positive sample rate, for every note, mod, lfo and frame
counter, `Sine2::sig` returns a value in `[-1, 1]`, assuming only that the sine primitive
returns values in `[-1, 1]` on `[0, 1)`. -/
theorem sine2_sig_range (env : Env) (hrate : 0 < env.k_samplerate)
    (hsin : ∀ x : ℚ, 0 ≤ x → x < 1 → -1 ≤ env.osc_sinf x ∧ env.osc_sinf x ≤ 1)
    (t : Sine2) (note mod : Nat) (lfo : ℚ) :
    -1 ≤ (t.sig env note mod lfo).1 ∧ (t.sig env note mod lfo).1 ≤ 1 := by
  have hph := Sine2.phase_range env hrate t note mod lfo
  have hret : (t.sig env note mod lfo).1 = env.osc_sinf (t.sig_locals env note mod lfo).phase :=
    rfl
  rw [hret]
  exact hsin _ hph.1 hph.2

theorem sine2_sig_range_witness :
    0 < Env.sample.k_samplerate ∧
    -1 ≤ ((⟨4000000000⟩ : Sine2).sig Env.sample 69 200 5).1 ∧
      ((⟨4000000000⟩ : Sine2).sig Env.sample 69 200 5).1 ≤ 1 :=
  ⟨by decide, sine2_sig_range Env.sample (by decide) (fun x _ _ => triangle_bounds x)
    ⟨4000000000⟩ 69 200 5⟩

/-! ## The order of advancing and evaluating -/

/-- With `blend = 0` and `lfo = 0`, `State::sig` returns what `Sine2::sig` returns at the same
frame counter, and leaves the same frame counter. -/
theorem State.sig_blend_zero (env : Env) (pwm : ℚ) (frame note mod : Nat) (lfo2 : ℚ) :
    ((⟨pwm, 0, frame⟩ : State).sig env note mod 0).1 = ((⟨frame⟩ : Sine2).sig env note mod lfo2).1 ∧
      ((⟨pwm, 0, frame⟩ : State).sig env note mod 0).2
        = ⟨pwm, 0, ((⟨frame⟩ : Sine2).sig env note mod lfo2).2.frames⟩ := by
  have hb : clipminmaxf PWM_MIN ((0 : ℚ) + 1 / 2 * 0) PWM_MAX = 0 := by
    norm_num [clipminmaxf, PWM_MIN, PWM_MAX]
  refine ⟨?_, rfl⟩
  simp only [State.sig, State.sig_locals, Sine2.sig, Sine2.sig_locals, hb]
  ring

/-- The two `increment_frame` methods do the same to the frame counter. -/
theorem State.increment_frame_eq_sine2 (env : Env) (pwm blend : ℚ) (frame : Nat) :
    (⟨pwm, blend, frame⟩ : State).increment_frame env
      = ⟨pwm, blend, ((⟨frame⟩ : Sine2).increment_frame env).frames⟩ := by
  simp only [State.increment_frame, Sine2.increment_frame]
  split_ifs <;> rfl

/-- The samples of the sine2 loop from a frame counter `f` are the samples of the sqine loop, at
`blend = 0` and `lfo = 0`, from the state that `increment_frame` leaves at the counter `f`. -/
theorem cycle_loops_aligned (env : Env) (pwm lfo2 : ℚ) (note mod n : Nat) :
    ∀ f : Nat, (Sine2.cycle_loop env note mod lfo2 n ⟨f⟩).1
      = (State.cycle_loop env note mod 0 n ((⟨pwm, 0, f⟩ : State).increment_frame env)).1 := by
  induction n with
  | zero => intro f; rfl
  | succ n ih =>
    intro f
    rw [State.increment_frame_eq_sine2]
    have hsig := State.sig_blend_zero env pwm ((⟨f⟩ : Sine2).increment_frame env).frames
      note mod lfo2
    have hl : (Sine2.cycle_loop env note mod lfo2 (n + 1) ⟨f⟩).1
        = env.f32_to_q31 (((⟨f⟩ : Sine2).increment_frame env).sig env note mod lfo2).1
          :: (Sine2.cycle_loop env note mod lfo2 n
              (((⟨f⟩ : Sine2).increment_frame env).sig env note mod lfo2).2).1 := rfl
    have hr : (State.cycle_loop env note mod 0 (n + 1)
          ⟨pwm, 0, ((⟨f⟩ : Sine2).increment_frame env).frames⟩).1
        = env.f32_to_q31 ((⟨pwm, 0, ((⟨f⟩ : Sine2).increment_frame env).frames⟩ : State).sig
              env note mod 0).1
          :: (State.cycle_loop env note mod 0 n
              (((⟨pwm, 0, ((⟨f⟩ : Sine2).increment_frame env).frames⟩ : State).sig
                env note mod 0).2.increment_frame env)).1 := rfl
    rw [hl, hr, hsig.1, hsig.2]
    congr 1
    exact ih _

/-- C18. The two variants differ by exactly one frame: starting both oscillators from the
note-on state and feeding both the same constant note and mod, with the blended variant at
`blend = 0` and `lfo = 0`, the samples of the loop of sine2 (advance, then evaluate) are the
samples of the loop of sqine (evaluate, then advance) without its first one; so for every `k`
the `k`-th sample of sine2 equals the `(k+1)`-th sample of sqine. -/
theorem variants_differ_by_one_frame (env : Env) (pwm lfo2 : ℚ) (t : Sine2) (s : State)
    (note mod n k : Nat) :
    (Sine2.cycle_loop env note mod lfo2 n t.note_on).1
      = (State.cycle_loop env note mod 0 (n + 1)
          ({ s with pwm := pwm, blend := 0 } : State).note_on).1.tail ∧
    (Sine2.cycle_loop env note mod lfo2 n t.note_on).1[k]?
      = (State.cycle_loop env note mod 0 (n + 1)
          ({ s with pwm := pwm, blend := 0 } : State).note_on).1[k + 1]? := by
  have h0 : ((⟨pwm, 0, 0⟩ : State).sig env note mod 0).2 = ⟨pwm, 0, 0⟩ := by
    simp [State.sig, State.sig_locals]
  have hunf : (State.cycle_loop env note mod 0 (n + 1) ⟨pwm, 0, 0⟩).1
      = env.f32_to_q31 ((⟨pwm, 0, 0⟩ : State).sig env note mod 0).1
        :: (State.cycle_loop env note mod 0 n
            (((⟨pwm, 0, 0⟩ : State).sig env note mod 0).2.increment_frame env)).1 := rfl
  have hs : (({ s with pwm := pwm, blend := 0 } : State).note_on) = ⟨pwm, 0, 0⟩ := rfl
  have ht : t.note_on = ⟨0⟩ := rfl
  have hal := cycle_loops_aligned env pwm lfo2 note mod n 0
  rw [hs, ht, hunf, h0]
  exact ⟨by rw [List.tail_cons]; exact hal, by rw [List.getElem?_cons_succ, hal]⟩

/-! ## The sample-rate ceiling -/

/-- Every call on the blended variant keeps the frame counter below a positive sample rate. -/
theorem Op.apply_frame_lt (env : Env) (hrate : 0 < env.k_samplerate) (s : State)
    (h : s.frame < env.k_samplerate) (op : Op) : (op.apply env s).frame < env.k_samplerate := by
  cases op with
  | init => exact hrate
  | note_on => exact hrate
  | set_blend v => exact h
  | set_pwm v => exact h
  | increment_frame =>
    simp only [Op.apply, State.increment_frame]
    split_ifs with hc
    · exact hrate
    · exact not_le.mp hc
  | sig note mod lfo =>
    simp only [Op.apply]
    rw [State.sig_frame_eq]
    split_ifs
    · exact hrate
    · exact h

/-- Every call on the sine variant keeps the frame counter below a positive sample rate. -/
theorem Sine2Op.apply_frames_lt (env : Env) (hrate : 0 < env.k_samplerate) (s : Sine2)
    (h : s.frames < env.k_samplerate) (op : Sine2Op) :
    (op.apply env s).frames < env.k_samplerate := by
  cases op with
  | init => exact hrate
  | note_on => exact hrate
  | increment_frame =>
    simp only [Sine2Op.apply, Sine2.increment_frame]
    split_ifs with hc
    · exact hrate
    · exact not_le.mp hc
  | sig note mod lfo =>
    simp only [Sine2Op.apply]
    rw [Sine2.sig_frames_eq]
    split_ifs
    · exact hrate
    · exact h

/-- A sequence of calls on the blended variant keeps the frame counter below a positive sample
rate. -/
theorem foldl_frame_lt (env : Env) (hrate : 0 < env.k_samplerate) (ops : List Op) :
    ∀ s : State, s.frame < env.k_samplerate →
      (ops.foldl (Op.apply env) s).frame < env.k_samplerate := by
  induction ops with
  | nil => intro s h; exact h
  | cons op rest ih => intro s h; exact ih _ (Op.apply_frame_lt env hrate s h op)

/-- A sequence of calls on the sine variant keeps the frame counter below a positive sample
rate. -/
theorem foldl_frames_lt (env : Env) (hrate : 0 < env.k_samplerate) (ops : List Sine2Op) :
    ∀ s : Sine2, s.frames < env.k_samplerate →
      (ops.foldl (Sine2Op.apply env) s).frames < env.k_samplerate := by
  induction ops with
  | nil => intro s h; exact h
  | cons op rest ih => intro s h; exact ih _ (Sine2Op.apply_frames_lt env hrate s h op)

/-- C19. Advance with sample-rate ceiling: with a positive sample rate that fits the 32 bit
counter, for every 32 bit frame value `f`, `increment_frame` of both variants leaves
`frame = f + 1` when `f + 1 < k_samplerate` and `frame = 0` otherwise (the wrap of the counter
at `f = 2 ^ 32 - 1` included); afterwards `frame < k_samplerate`; and in every state reached
from the constructor by any sequence of calls the frame counter is below `k_samplerate`, so
that `frame++` does not overflow. -/
theorem increment_frame_ceiling (env : Env) (hrate : 0 < env.k_samplerate)
    (hfit : env.k_samplerate < 2 ^ 32) (s : State) (hs : s.frame < 2 ^ 32) (t : Sine2)
    (ht : t.frames < 2 ^ 32) (s0 : State) (ops : List Op) (t0 : Sine2) (tops : List Sine2Op) :
    ((s.increment_frame env).frame = if s.frame + 1 < env.k_samplerate then s.frame + 1 else 0) ∧
    ((t.increment_frame env).frames
      = if t.frames + 1 < env.k_samplerate then t.frames + 1 else 0) ∧
    ((s.increment_frame env).frame < env.k_samplerate ∧
      (t.increment_frame env).frames < env.k_samplerate) ∧
    ((State.run env s0 ops).frame < env.k_samplerate ∧
      (State.run env s0 ops).frame + 1 < 2 ^ 32) ∧
    ((Sine2.run env t0 tops).frames < env.k_samplerate ∧
      (Sine2.run env t0 tops).frames + 1 < 2 ^ 32) := by
  have hS : (s.increment_frame env).frame
      = if s.frame + 1 < env.k_samplerate then s.frame + 1 else 0 := by
    simp only [State.increment_frame]
    by_cases hw : s.frame + 1 < 2 ^ 32
    · rw [Nat.mod_eq_of_lt hw]
      split_ifs <;> first | rfl | omega
    · have h32 : s.frame + 1 = 2 ^ 32 := by omega
      rw [h32, Nat.mod_self]
      split_ifs <;> first | rfl | omega
  have hT : (t.increment_frame env).frames
      = if t.frames + 1 < env.k_samplerate then t.frames + 1 else 0 := by
    simp only [Sine2.increment_frame]
    by_cases hw : t.frames + 1 < 2 ^ 32
    · rw [Nat.mod_eq_of_lt hw]
      split_ifs <;> first | rfl | omega
    · have h32 : t.frames + 1 = 2 ^ 32 := by omega
      rw [h32, Nat.mod_self]
      split_ifs <;> first | rfl | omega
  have hrs : (State.run env s0 ops).frame < env.k_samplerate :=
    foldl_frame_lt env hrate ops s0.init hrate
  have hrt : (Sine2.run env t0 tops).frames < env.k_samplerate :=
    foldl_frames_lt env hrate tops t0.init hrate
  refine ⟨hS, hT, ⟨?_, ?_⟩, ⟨hrs, by omega⟩, ⟨hrt, by omega⟩⟩
  · rw [hS]; split_ifs <;> omega
  · rw [hT]; split_ifs <;> omega

theorem increment_frame_ceiling_witness :
    (0 < Env.sample.k_samplerate ∧ Env.sample.k_samplerate < 2 ^ 32 ∧
      (⟨0, 1 / 2, 4294967295⟩ : State).frame < 2 ^ 32 ∧ (⟨47999⟩ : Sine2).frames < 2 ^ 32) ∧
    ((⟨0, 1 / 2, 4294967295⟩ : State).increment_frame Env.sample).frame
      = (if (⟨0, 1 / 2, 4294967295⟩ : State).frame + 1 < Env.sample.k_samplerate
          then (⟨0, 1 / 2, 4294967295⟩ : State).frame + 1 else 0) ∧
    ((⟨47999⟩ : Sine2).increment_frame Env.sample).frames
      = (if (⟨47999⟩ : Sine2).frames + 1 < Env.sample.k_samplerate
          then (⟨47999⟩ : Sine2).frames + 1 else 0) :=
  have h := increment_frame_ceiling Env.sample (by decide) (by decide) ⟨0, 1 / 2, 4294967295⟩
    (by decide) ⟨47999⟩ (by decide) ⟨9, 9, 9⟩ [Op.sig 69 0 0, Op.increment_frame] ⟨9⟩
    [Sine2Op.increment_frame]
  ⟨⟨by decide, by decide, by decide, by decide⟩, h.1, h.2.1⟩

/-! ## Rounding to a binary format -/

/-- The rounded integer is within one half of the value. -/
theorem round_half_even_bounds (x : ℚ) :
    (round_half_even x : ℚ) - 1 / 2 ≤ x ∧ x ≤ (round_half_even x : ℚ) + 1 / 2 := by
  have h1 := Int.floor_le x
  have h2 := Int.lt_floor_add_one x
  simp only [round_half_even]
  split_ifs <;> push_cast <;> constructor <;> linarith

/-- An integer rounds to itself. -/
theorem round_half_even_intCast (n : ℤ) : round_half_even (n : ℚ) = n := by
  simp [round_half_even]

/-- Rounding to the nearest integer is monotone. -/
theorem round_half_even_mono {x y : ℚ} (h : x ≤ y) : round_half_even x ≤ round_half_even y := by
  have hf : ⌊x⌋ ≤ ⌊y⌋ := Int.floor_mono h
  have hx1 := Int.floor_le x
  have hx2 := Int.lt_floor_add_one x
  have hy1 := Int.floor_le y
  have hy2 := Int.lt_floor_add_one y
  rcases lt_or_eq_of_le hf with hlt | heq
  · have hxle : round_half_even x ≤ ⌊x⌋ + 1 := by
      simp only [round_half_even]; split_ifs <;> omega
    have hyge : ⌊y⌋ ≤ round_half_even y := by
      simp only [round_half_even]; split_ifs <;> omega
    omega
  · simp only [round_half_even, heq]
    rw [heq] at hx1 hx2
    split_ifs <;> first | omega | (exfalso; linarith)


/-- A power of two with a nonnegative exponent is an integer. -/
theorem two_zpow_eq_intCast (n : ℤ) (hn : 0 ≤ n) : ∃ m : ℤ, (2 : ℚ) ^ n = (m : ℚ) := by
  lift n to ℕ using hn
  exact ⟨2 ^ n, by push_cast; exact zpow_natCast 2 n⟩

/-- A positive value is at least the power of two of its binary logarithm. -/
theorem log_two_le (x : ℚ) (hx : 0 < x) : (2 : ℚ) ^ Int.log 2 x ≤ x := by
  have h := Int.zpow_log_le_self (b := 2) (by norm_num) hx
  simpa using h

/-- A value is below the next power of two after its binary logarithm. -/
theorem lt_log_two_succ (x : ℚ) : x < (2 : ℚ) ^ (Int.log 2 x + 1) := by
  have h := Int.lt_zpow_succ_log_self (b := 2) (by norm_num) x
  simpa using h

/-- A value below a power of two rounds to at most that power, when the power lies on the grid. -/
theorem round_scaled_le (x : ℚ) (q e : ℤ) (hqe : q ≤ e) (hx : x ≤ (2 : ℚ) ^ e) :
    (round_half_even (x / 2 ^ q) : ℚ) * 2 ^ q ≤ 2 ^ e := by
  have hq : (0 : ℚ) < 2 ^ q := zpow_pos (by norm_num) q
  obtain ⟨m, hm⟩ := two_zpow_eq_intCast (e - q) (by omega)
  have hdiv : (2 : ℚ) ^ e / 2 ^ q = (m : ℚ) := by
    rw [← hm, zpow_sub₀ (by norm_num)]
  have h1 : x / 2 ^ q ≤ (m : ℚ) := by
    rw [← hdiv]; exact div_le_div_of_nonneg_right hx (le_of_lt hq)
  have h2 : round_half_even (x / 2 ^ q) ≤ m := by
    have := round_half_even_mono h1
    rwa [round_half_even_intCast] at this
  have h3 : (round_half_even (x / 2 ^ q) : ℚ) ≤ (m : ℚ) := by exact_mod_cast h2
  calc (round_half_even (x / 2 ^ q) : ℚ) * 2 ^ q ≤ (m : ℚ) * 2 ^ q :=
        mul_le_mul_of_nonneg_right h3 (le_of_lt hq)
    _ = 2 ^ e := by rw [← hdiv]; field_simp

/-- A value above a power of two rounds to at least that power, when the power lies on the grid. -/
theorem le_round_scaled (y : ℚ) (q e : ℤ) (hqe : q ≤ e) (hy : (2 : ℚ) ^ e ≤ y) :
    (2 : ℚ) ^ e ≤ (round_half_even (y / 2 ^ q) : ℚ) * 2 ^ q := by
  have hq : (0 : ℚ) < 2 ^ q := zpow_pos (by norm_num) q
  obtain ⟨m, hm⟩ := two_zpow_eq_intCast (e - q) (by omega)
  have hdiv : (2 : ℚ) ^ e / 2 ^ q = (m : ℚ) := by
    rw [← hm, zpow_sub₀ (by norm_num)]
  have h1 : (m : ℚ) ≤ y / 2 ^ q := by
    rw [← hdiv]; exact div_le_div_of_nonneg_right hy (le_of_lt hq)
  have h2 : m ≤ round_half_even (y / 2 ^ q) := by
    have := round_half_even_mono h1
    rwa [round_half_even_intCast] at this
  have h3 : (m : ℚ) ≤ (round_half_even (y / 2 ^ q) : ℚ) := by exact_mod_cast h2
  calc (2 : ℚ) ^ e = (m : ℚ) * 2 ^ q := by rw [← hdiv]; field_simp
    _ ≤ (round_half_even (y / 2 ^ q) : ℚ) * 2 ^ q :=
        mul_le_mul_of_nonneg_right h3 (le_of_lt hq)

/-- Rounding to a binary format is monotone on the nonnegative values. -/
theorem round_to_format_mono (p : Nat) (hp : 1 ≤ p) (emin : Int) (x y : ℚ) (hx : 0 ≤ x)
    (hxy : x ≤ y) : round_to_format p emin x ≤ round_to_format p emin y := by
  have hy : 0 ≤ y := le_trans hx hxy
  simp only [round_to_format, abs_of_nonneg hx, abs_of_nonneg hy]
  rcases eq_or_lt_of_le hx with h0 | hpos
  · subst h0
    have hq : (0 : ℚ) < 2 ^ max (Int.log 2 y - ((p : ℤ) - 1)) emin := zpow_pos (by norm_num) _
    have h1 : round_half_even ((0 : ℚ) / 2 ^ max (Int.log 2 (0 : ℚ) - ((p : ℤ) - 1)) emin) = 0 := by
      rw [zero_div]; exact round_half_even_intCast 0
    have h2 : (0 : ℤ) ≤ round_half_even (y / 2 ^ max (Int.log 2 y - ((p : ℤ) - 1)) emin) := by
      have := round_half_even_mono (div_nonneg hy (le_of_lt hq))
      rwa [show ((0 : ℚ)) = ((0 : ℤ) : ℚ) by norm_num, round_half_even_intCast] at this
    rw [h1]
    have h3 : (0 : ℚ) ≤ (round_half_even (y / 2 ^ max (Int.log 2 y - ((p : ℤ) - 1)) emin) : ℚ) := by
      exact_mod_cast h2
    simpa using mul_nonneg h3 (le_of_lt hq)
  · have hypos : 0 < y := lt_of_lt_of_le hpos hxy
    have hlog : Int.log 2 x ≤ Int.log 2 y := Int.log_mono_right hpos hxy
    rcases eq_or_lt_of_le hlog with heq | hlt
    · rw [heq]
      have hq : (0 : ℚ) < 2 ^ max (Int.log 2 y - ((p : ℤ) - 1)) emin := zpow_pos (by norm_num) _
      have h1 := round_half_even_mono (div_le_div_of_nonneg_right hxy (le_of_lt hq))
      have h2 : (round_half_even (x / 2 ^ max (Int.log 2 y - ((p : ℤ) - 1)) emin) : ℚ)
          ≤ (round_half_even (y / 2 ^ max (Int.log 2 y - ((p : ℤ) - 1)) emin) : ℚ) := by
        exact_mod_cast h1
      exact mul_le_mul_of_nonneg_right h2 (le_of_lt hq)
    · by_cases hq : max (Int.log 2 x - ((p : ℤ) - 1)) emin = max (Int.log 2 y - ((p : ℤ) - 1)) emin
      · rw [hq]
        have hq0 : (0 : ℚ) < 2 ^ max (Int.log 2 y - ((p : ℤ) - 1)) emin := zpow_pos (by norm_num) _
        have h1 := round_half_even_mono (div_le_div_of_nonneg_right hxy (le_of_lt hq0))
        have h2 : (round_half_even (x / 2 ^ max (Int.log 2 y - ((p : ℤ) - 1)) emin) : ℚ)
            ≤ (round_half_even (y / 2 ^ max (Int.log 2 y - ((p : ℤ) - 1)) emin) : ℚ) := by
          exact_mod_cast h1
        exact mul_le_mul_of_nonneg_right h2 (le_of_lt hq0)
      · have hp1 : (1 : ℤ) ≤ (p : ℤ) := by exact_mod_cast hp
        have hxB : x ≤ (2 : ℚ) ^ Int.log 2 y :=
          le_trans (le_of_lt (lt_log_two_succ x)) (zpow_le_zpow_right₀ (by norm_num) (by omega))
        have hBy : (2 : ℚ) ^ Int.log 2 y ≤ y := log_two_le y hypos
        have hA := round_scaled_le x (max (Int.log 2 x - ((p : ℤ) - 1)) emin) (Int.log 2 y)
          (by omega) hxB
        have hB := le_round_scaled y (max (Int.log 2 y - ((p : ℤ) - 1)) emin) (Int.log 2 y)
          (by omega) hBy
        exact le_trans hA hB

/-- A natural number below `2 ^ p` is a value of the format with `p` significand bits. -/
theorem round_to_format_natCast (p : Nat) (hp : 1 ≤ p) (emin : Int) (hemin : emin ≤ 0) (n : Nat)
    (hn : n < 2 ^ p) : round_to_format p emin (n : ℚ) = n := by
  have hp1 : (1 : ℤ) ≤ (p : ℤ) := by exact_mod_cast hp
  have habs : |(n : ℚ)| = (n : ℚ) := Nat.abs_cast n
  simp only [round_to_format, habs]
  have hlog : Int.log 2 (n : ℚ) - ((p : ℤ) - 1) ≤ 0 := by
    rcases Nat.eq_zero_or_pos n with h0 | hpos
    · subst h0
      simp only [Nat.cast_zero, Int.log_zero_right]
      omega
    · have hnq : (0 : ℚ) < (n : ℚ) := by exact_mod_cast hpos
      have hlt : (n : ℚ) < ((2 : ℕ) : ℚ) ^ ((p : ℤ)) := by
        rw [zpow_natCast]; exact_mod_cast hn
      have := (Int.lt_zpow_iff_log_lt (b := 2) (by norm_num) hnq).mp hlt
      omega
  have hq0 : max (Int.log 2 (n : ℚ) - ((p : ℤ) - 1)) emin ≤ 0 := by omega
  generalize max (Int.log 2 (n : ℚ) - ((p : ℤ) - 1)) emin = q at hq0 ⊢
  have hq : (0 : ℚ) < 2 ^ q := zpow_pos (by norm_num) q
  obtain ⟨m, hm⟩ := two_zpow_eq_intCast (-q) (by omega)
  have hdiv : (n : ℚ) / 2 ^ q = ((n * m : ℤ) : ℚ) := by
    push_cast
    rw [← hm, zpow_neg, div_eq_mul_inv]
  rw [hdiv, round_half_even_intCast]
  push_cast
  rw [← hm, zpow_neg]
  field_simp

/-- A value strictly within one half of an integer rounds to that integer. -/
theorem round_half_even_eq (x : ℚ) (m : ℤ) (h1 : (m : ℚ) - 1 / 2 < x) (h2 : x < (m : ℚ) + 1 / 2) :
    round_half_even x = m := by
  obtain ⟨hb1, hb2⟩ := round_half_even_bounds x
  have hlt : (round_half_even x : ℚ) < (m : ℚ) + 1 := by linarith
  have hgt : (m : ℚ) - 1 < (round_half_even x : ℚ) := by linarith
  have hlt2 : round_half_even x < m + 1 := by exact_mod_cast hlt
  have hgt2 : m - 1 < round_half_even x := by exact_mod_cast hgt
  omega

/-- The rounding of a positive value whose binade and nearest significand are known. -/
theorem round_to_format_eval (p : Nat) (emin : Int) (x : ℚ) (e m : ℤ) (hlo : (2 : ℚ) ^ e ≤ x)
    (hhi : x < (2 : ℚ) ^ (e + 1))
    (h1 : (m : ℚ) - 1 / 2 < x / 2 ^ max (e - ((p : ℤ) - 1)) emin)
    (h2 : x / 2 ^ max (e - ((p : ℤ) - 1)) emin < (m : ℚ) + 1 / 2) :
    round_to_format p emin x = (m : ℚ) * 2 ^ max (e - ((p : ℤ) - 1)) emin := by
  have hx : 0 < x := lt_of_lt_of_le (zpow_pos (by norm_num) e) hlo
  have hlog : Int.log 2 x = e := by
    have hle : e ≤ Int.log 2 x :=
      (Int.zpow_le_iff_le_log (b := 2) (by norm_num) hx).mp (by simpa using hlo)
    have hlt : Int.log 2 x < e + 1 :=
      (Int.lt_zpow_iff_log_lt (b := 2) (by norm_num) hx).mp (by simpa using hhi)
    omega
  simp only [round_to_format, abs_of_pos hx, hlog]
  rw [round_half_even_eq _ m h1 h2]

/-! ## The length of a cycle in samples -/

/-- Without rounding, the rounded body of `State::sig` is the exact one. -/
theorem State.sig_rounded_exact (env : Env) (s : State) (note mod : Nat) (lfo : ℚ) :
    s.sig_rounded Rounding.exact env note mod lfo = s.sig env note mod lfo :=
  rfl

/-- The frame counter left by the rounded `State::sig`. -/
theorem State.sig_rounded_frame (r : Rounding) (env : Env) (s : State) (note mod : Nat)
    (lfo : ℚ) :
    (s.sig_rounded r env note mod lfo).2.frame =
      if r.f32 (s.frame : ℚ) ≥ (s.sig_locals_rounded r env note mod lfo).frames_per_cycle
      then 0 else s.frame :=
  rfl

/-- The rounded `frames_per_cycle` depends on the note and mod only. -/
theorem State.rounded_frames_per_cycle_indep (r : Rounding) (env : Env) (s u : State)
    (note mod : Nat) (lfo lfo2 : ℚ) :
    (s.sig_locals_rounded r env note mod lfo).frames_per_cycle
      = (u.sig_locals_rounded r env note mod lfo2).frames_per_cycle :=
  rfl

/-- The frequency of the rounded `State::sig` lies between 1 and the larger of 1 and
`k_note_max_hz`. -/
theorem State.rounded_hz_bounds (r : Rounding) (env : Env) (s : State) (note mod : Nat)
    (lfo : ℚ) :
    1 ≤ (s.sig_locals_rounded r env note mod lfo).hz ∧
      (s.sig_locals_rounded r env note mod lfo).hz ≤ max 1 env.k_note_max_hz := by
  simp only [State.sig_locals_rounded]
  split_ifs with h
  · exact ⟨le_refl _, le_max_left _ _⟩
  · exact ⟨not_lt.mp h, le_trans (clipmaxf_le _ _) (le_max_right _ _)⟩

/-- With a monotone rounding that is exact on the counters up to `k_samplerate`, and a maximal
frequency of at most the sample rate, the rounded `frames_per_cycle` lies between 1 and
`k_samplerate`. -/
theorem State.rounded_frames_per_cycle_bounds (r : Rounding) (env : Env)
    (hmono : ∀ x y : ℚ, 0 ≤ x → x ≤ y → r.f32 x ≤ r.f32 y)
    (hnat : ∀ n : Nat, n ≤ env.k_samplerate → r.f32 (n : ℚ) = n)
    (hrate : 0 < env.k_samplerate) (hmax : env.k_note_max_hz ≤ env.k_samplerate)
    (s : State) (note mod : Nat) (lfo : ℚ) :
    1 ≤ (s.sig_locals_rounded r env note mod lfo).frames_per_cycle ∧
      (s.sig_locals_rounded r env note mod lfo).frames_per_cycle ≤ env.k_samplerate := by
  obtain ⟨hz1, hz2⟩ := State.rounded_hz_bounds r env s note mod lfo
  have hK1 : (1 : ℚ) ≤ env.k_samplerate := by exact_mod_cast hrate
  have hzK : (s.sig_locals_rounded r env note mod lfo).hz ≤ env.k_samplerate :=
    le_trans hz2 (max_le hK1 hmax)
  have hzpos : (0 : ℚ) < (s.sig_locals_rounded r env note mod lfo).hz := by linarith
  have hdef : (s.sig_locals_rounded r env note mod lfo).frames_per_cycle
      = r.f32 (r.f32 (env.k_samplerate : ℚ) / (s.sig_locals_rounded r env note mod lfo).hz) := rfl
  have h1 : r.f32 ((1 : Nat) : ℚ) = ((1 : Nat) : ℚ) := hnat 1 hrate
  rw [hdef, hnat env.k_samplerate (le_refl _)]
  constructor
  · have hq : (1 : ℚ) ≤ (env.k_samplerate : ℚ) / (s.sig_locals_rounded r env note mod lfo).hz :=
      (one_le_div hzpos).mpr hzK
    have h1q : r.f32 (1 : ℚ) = 1 := by simpa using h1
    have h := hmono 1 _ (by norm_num) hq
    rwa [h1q] at h
  · have hq : (env.k_samplerate : ℚ) / (s.sig_locals_rounded r env note mod lfo).hz
        ≤ (env.k_samplerate : ℚ) := div_le_self (Nat.cast_nonneg _) hz1
    have := hmono _ _ (div_nonneg (Nat.cast_nonneg _) (le_of_lt hzpos)) hq
    rwa [hnat env.k_samplerate (le_refl _)] at this

/-- The cycle length in samples lies between 1 and the sample rate. -/
theorem State.cycle_samples_bounds (r : Rounding) (env : Env)
    (hmono : ∀ x y : ℚ, 0 ≤ x → x ≤ y → r.f32 x ≤ r.f32 y)
    (hnat : ∀ n : Nat, n ≤ env.k_samplerate → r.f32 (n : ℚ) = n)
    (hrate : 0 < env.k_samplerate) (hmax : env.k_note_max_hz ≤ env.k_samplerate)
    (note mod : Nat) :
    1 ≤ State.cycle_samples r env note mod ∧
      State.cycle_samples r env note mod ≤ env.k_samplerate := by
  obtain ⟨h1, h2⟩ :=
    State.rounded_frames_per_cycle_bounds r env hmono hnat hrate hmax ⟨0, 0, 0⟩ note mod 0
  constructor
  · exact Nat.ceil_pos.mpr (by linarith)
  · exact Nat.ceil_le.mpr h2

/-- The frame counter left by the rounded `State::sig`, for a counter of at most `k_samplerate`,
in terms of the cycle length in samples. -/
theorem State.sig_rounded_frame_samples (r : Rounding) (env : Env)
    (hnat : ∀ n : Nat, n ≤ env.k_samplerate → r.f32 (n : ℚ) = n)
    (s : State) (hs : s.frame ≤ env.k_samplerate) (note mod : Nat) (lfo : ℚ) :
    (s.sig_rounded r env note mod lfo).2.frame
      = if State.cycle_samples r env note mod ≤ s.frame then 0 else s.frame := by
  have hiff : r.f32 (s.frame : ℚ) ≥ (s.sig_locals_rounded r env note mod lfo).frames_per_cycle
      ↔ State.cycle_samples r env note mod ≤ s.frame := by
    rw [hnat s.frame hs]
    unfold State.cycle_samples
    rw [State.rounded_frames_per_cycle_indep r env ⟨0, 0, 0⟩ s note mod 0 lfo]
    exact Nat.ceil_le.symm
  rw [State.sig_rounded_frame]
  by_cases h : State.cycle_samples r env note mod ≤ s.frame
  · rw [if_pos h, if_pos (hiff.mpr h)]
  · rw [if_neg h, if_neg (mt hiff.mp h)]

/-- The frame counter left by `State::increment_frame` when the sample rate and the counter
fit 32 bits. -/
theorem State.increment_frame_val (env : Env) (hfit : env.k_samplerate < 2 ^ 32) (s : State)
    (hs : s.frame < 2 ^ 32) :
    (s.increment_frame env).frame
      = if s.frame + 1 < env.k_samplerate then s.frame + 1 else 0 := by
  simp only [State.increment_frame]
  by_cases hw : s.frame + 1 < 2 ^ 32
  · rw [Nat.mod_eq_of_lt hw]
    split_ifs <;> first | rfl | omega
  · have h32 : s.frame + 1 = 2 ^ 32 := by omega
    rw [h32, Nat.mod_self]
    split_ifs <;> first | rfl | omega

/-- One round of advancing and resyncing moves a frame counter below the cycle length in
samples to its successor modulo that length. -/
theorem State.advance_resync (r : Rounding) (env : Env)
    (hmono : ∀ x y : ℚ, 0 ≤ x → x ≤ y → r.f32 x ≤ r.f32 y)
    (hnat : ∀ n : Nat, n ≤ env.k_samplerate → r.f32 (n : ℚ) = n)
    (hrate : 0 < env.k_samplerate) (hfit : env.k_samplerate < 2 ^ 32)
    (hmax : env.k_note_max_hz ≤ env.k_samplerate)
    (s : State) (note mod : Nat) (lfo : ℚ)
    (hs : s.frame < State.cycle_samples r env note mod) :
    ((s.increment_frame env).sig_rounded r env note mod lfo).2.frame
      = (s.frame + 1) % State.cycle_samples r env note mod := by
  obtain ⟨h1, hK⟩ := State.cycle_samples_bounds r env hmono hnat hrate hmax note mod
  have hval := State.increment_frame_val env hfit s (by omega)
  have hle : (s.increment_frame env).frame ≤ env.k_samplerate := by
    rw [hval]; split_ifs <;> omega
  rw [State.sig_rounded_frame_samples r env hnat _ hle, hval]
  by_cases hlt : s.frame + 1 < State.cycle_samples r env note mod
  · rw [Nat.mod_eq_of_lt hlt]
    split_ifs <;> omega
  · have heq : s.frame + 1 = State.cycle_samples r env note mod := by omega
    rw [heq, Nat.mod_self]
    split_ifs <;> first | rfl | omega

/-- The state after `k + 1` rounds of the rounded sqine loop is the state after `k` rounds,
evaluated and advanced once more. -/
theorem State.cycle_loop_rounded_succ (r : Rounding) (env : Env) (note mod : Nat) (lfo : ℚ)
    (k : Nat) :
    ∀ s : State, (State.cycle_loop_rounded r env note mod lfo (k + 1) s).2
      = (((State.cycle_loop_rounded r env note mod lfo k s).2.sig_rounded
          r env note mod lfo).2).increment_frame env := by
  induction k with
  | zero => intro s; rfl
  | succ k ih =>
    intro s
    have h1 : (State.cycle_loop_rounded r env note mod lfo (k + 1 + 1) s).2
        = (State.cycle_loop_rounded r env note mod lfo (k + 1)
            ((s.sig_rounded r env note mod lfo).2.increment_frame env)).2 := rfl
    have h2 : (State.cycle_loop_rounded r env note mod lfo (k + 1) s).2
        = (State.cycle_loop_rounded r env note mod lfo k
            ((s.sig_rounded r env note mod lfo).2.increment_frame env)).2 := rfl
    rw [h1, ih, h2]

/-- The `k`-th sample written by the rounded sqine loop is the quantized value of `sig` in the
state after `k` rounds. -/
theorem State.cycle_loop_rounded_sample (r : Rounding) (env : Env) (note mod : Nat) (lfo : ℚ)
    (n : Nat) :
    ∀ (s : State) (k : Nat), k < n →
      (State.cycle_loop_rounded r env note mod lfo n s).1[k]?
        = some (env.f32_to_q31
            ((State.cycle_loop_rounded r env note mod lfo k s).2.sig_rounded
              r env note mod lfo).1) := by
  induction n with
  | zero => intro s k hk; omega
  | succ n ih =>
    intro s k hk
    have hunf : (State.cycle_loop_rounded r env note mod lfo (n + 1) s).1
        = env.f32_to_q31 (s.sig_rounded r env note mod lfo).1
          :: (State.cycle_loop_rounded r env note mod lfo n
              ((s.sig_rounded r env note mod lfo).2.increment_frame env)).1 := rfl
    rw [hunf]
    cases k with
    | zero => rw [List.getElem?_cons_zero]; rfl
    | succ j =>
      rw [List.getElem?_cons_succ, ih _ j (by omega)]
      rfl

/-- Two blocks in a row write what one block of the summed length writes, and leave the
same state. -/
theorem State.cycle_loop_rounded_add (r : Rounding) (env : Env) (note mod : Nat) (lfo : ℚ)
    (a b : Nat) :
    ∀ s : State, State.cycle_loop_rounded r env note mod lfo (a + b) s
      = ((State.cycle_loop_rounded r env note mod lfo a s).1
          ++ (State.cycle_loop_rounded r env note mod lfo b
              (State.cycle_loop_rounded r env note mod lfo a s).2).1,
        (State.cycle_loop_rounded r env note mod lfo b
          (State.cycle_loop_rounded r env note mod lfo a s).2).2) := by
  induction a with
  | zero => intro s; simp [State.cycle_loop_rounded]
  | succ a ih =>
    intro s
    rw [Nat.add_right_comm]
    simp only [State.cycle_loop_rounded, ih, List.cons_append]

/-- The rounded loop leaves the knobs as they are, for every block length. -/
theorem State.cycle_loop_rounded_knobs (r : Rounding) (env : Env) (note mod : Nat) (lfo : ℚ)
    (frames : Nat) :
    ∀ s : State, (State.cycle_loop_rounded r env note mod lfo frames s).2.pwm = s.pwm ∧
      (State.cycle_loop_rounded r env note mod lfo frames s).2.blend = s.blend := by
  induction frames with
  | zero => intro s; exact ⟨rfl, rfl⟩
  | succ n ih =>
    intro s
    have hstep := ih ((s.sig_rounded r env note mod lfo).2.increment_frame env)
    have hinc := State.increment_frame_knobs env (s.sig_rounded r env note mod lfo).2
    have hunf : (State.cycle_loop_rounded r env note mod lfo (n + 1) s).2
        = (State.cycle_loop_rounded r env note mod lfo n
            ((s.sig_rounded r env note mod lfo).2.increment_frame env)).2 := rfl
    rw [hunf]
    exact ⟨hstep.1.trans hinc.1, hstep.2.trans hinc.2⟩

/-- The value returned by the rounded `State::sig` is determined by the knobs and the resynced
frame. -/
theorem State.sig_rounded_congr (r : Rounding) (env : Env) (s u : State) (note mod : Nat)
    (lfo : ℚ) (hp : s.pwm = u.pwm) (hb : s.blend = u.blend)
    (hf : (s.sig_rounded r env note mod lfo).2.frame = (u.sig_rounded r env note mod lfo).2.frame) :
    (s.sig_rounded r env note mod lfo).1 = (u.sig_rounded r env note mod lfo).1 := by
  simp only [State.sig_rounded, State.sig_locals_rounded] at hf ⊢
  rw [hp, hb, hf]

/-- From frame 0 the frame at which the `k`-th sample is evaluated is `k` modulo the cycle
length in samples. -/
theorem State.evaluated_frame (r : Rounding) (env : Env)
    (hmono : ∀ x y : ℚ, 0 ≤ x → x ≤ y → r.f32 x ≤ r.f32 y)
    (hnat : ∀ n : Nat, n ≤ env.k_samplerate → r.f32 (n : ℚ) = n)
    (hrate : 0 < env.k_samplerate) (hfit : env.k_samplerate < 2 ^ 32)
    (hmax : env.k_note_max_hz ≤ env.k_samplerate)
    (pwm blend lfo : ℚ) (note mod : Nat) (k : Nat) :
    ((State.cycle_loop_rounded r env note mod lfo k ⟨pwm, blend, 0⟩).2.sig_rounded
        r env note mod lfo).2.frame
      = k % State.cycle_samples r env note mod := by
  obtain ⟨h1, _⟩ := State.cycle_samples_bounds r env hmono hnat hrate hmax note mod
  induction k with
  | zero =>
    have h0 : (State.cycle_loop_rounded r env note mod lfo 0 ⟨pwm, blend, 0⟩).2
        = ⟨pwm, blend, 0⟩ := rfl
    rw [h0, State.sig_rounded_frame_samples r env hnat _ (Nat.zero_le _)]
    simp
  | succ k ih =>
    rw [State.cycle_loop_rounded_succ]
    have hlt : ((State.cycle_loop_rounded r env note mod lfo k ⟨pwm, blend, 0⟩).2.sig_rounded
        r env note mod lfo).2.frame < State.cycle_samples r env note mod := by
      rw [ih]; exact Nat.mod_lt _ h1
    rw [State.advance_resync r env hmono hnat hrate hfit hmax _ note mod lfo hlt, ih,
      Nat.mod_add_mod]

/-- Rounding to binary32 is monotone on the nonnegative values. -/
theorem binary32_mono (x y : ℚ) (hx : 0 ≤ x) (hxy : x ≤ y) : binary32 x ≤ binary32 y :=
  round_to_format_mono 24 (by norm_num) (-149) x y hx hxy

/-- Every natural number below `2 ^ 24` is a binary32 value. -/
theorem binary32_natCast (n : Nat) (hn : n < 2 ^ 24) : binary32 (n : ℚ) = n :=
  round_to_format_natCast 24 (by norm_num) (-149) (by norm_num) n hn

/-- In the environment `Env.near_integer` the binary32 `frames_per_cycle` is `11.0` and a cycle
has 11 samples, where the exact quotient lies above 11. -/
theorem Env.near_integer_cycle_samples :
    ((⟨0, 0, 0⟩ : State).sig_locals_rounded Rounding.ieee Env.near_integer 0 0 0).frames_per_cycle
        = 11 ∧
      State.cycle_samples Rounding.ieee Env.near_integer 0 0 = 11 ∧
      (11 : ℚ) < (48000 : ℚ) / (8936727 / 2048) := by
  have h0 : binary32 0 = 0 := by simpa using binary32_natCast 0 (by norm_num)
  have hK : binary32 48000 = 48000 := by simpa using binary32_natCast 48000 (by norm_num)
  have hf0 : binary32 (8936727 / 2048) = 8936727 / 2048 := by
    have h := round_to_format_eval 24 (-149) (8936727 / 2048) 12 8936727
      (by norm_num) (by norm_num) (by norm_num) (by norm_num)
    rw [binary32, h]
    norm_num
  have hq : binary32 (48000 / (8936727 / 2048)) = 11 := by
    have h := round_to_format_eval 24 (-149) (48000 / (8936727 / 2048)) 3 11534336
      (by norm_num) (by norm_num) (by norm_num) (by norm_num)
    rw [binary32, h]
    norm_num
  have hfpc : ((⟨0, 0, 0⟩ : State).sig_locals_rounded Rounding.ieee Env.near_integer
      0 0 0).frames_per_cycle = 11 := by
    simp only [State.sig_locals_rounded, Rounding.ieee, Env.near_integer, linintf_rounded,
      clipmaxf, Nat.cast_zero, Nat.cast_ofNat, h0, zero_mul, add_zero, hf0, hK]
    norm_num
    rw [show (32768000 : ℚ) / 2978909 = 48000 / (8936727 / 2048) by norm_num]
    exact hq
  refine ⟨hfpc, ?_, by norm_num⟩
  unfold State.cycle_samples
  rw [hfpc]
  exact_mod_cast Nat.ceil_natCast 11

/-- C20. Cycle length is the ceiling of `frames_per_cycle`: for the blended variant started from
`frame = 0` with constant note, mod, knobs and lfo, let `N = ceil(frames_per_cycle)` for the
`frames_per_cycle = k_samplerate / hz` that `sig` computes in float arithmetic.  With a rounding
that is monotone and exact on the counters up to `k_samplerate`, a sample rate that is positive
and fits the 32 bit counter, and `k_note_max_hz <= k_samplerate`: `1 <= N <= k_samplerate`; the
frame at which the `k`-th sample is evaluated is `k mod N` (so the first `N` frames are
`0 .. N - 1`); the `k`-th sample written is the quantized value of `sig` at frame `k mod N`, so
the samples repeat after exactly `N` samples; and two blocks in a row write what one block of
the summed length writes. -/
theorem cycle_length_is_ceiling (r : Rounding) (env : Env)
    (hmono : ∀ x y : ℚ, 0 ≤ x → x ≤ y → r.f32 x ≤ r.f32 y)
    (hnat : ∀ n : Nat, n ≤ env.k_samplerate → r.f32 (n : ℚ) = n)
    (hrate : 0 < env.k_samplerate) (hfit : env.k_samplerate < 2 ^ 32)
    (hmax : env.k_note_max_hz ≤ env.k_samplerate)
    (pwm blend lfo : ℚ) (note mod n k a b : Nat) (s : State) (params : user_osc_param_t) :
    (State.cycle_samples r env note mod
        = Nat.ceil ((⟨pwm, blend, 0⟩ : State).sig_locals_rounded r env note mod lfo).frames_per_cycle ∧
      ((⟨pwm, blend, 0⟩ : State).sig_locals_rounded r env note mod lfo).frames_per_cycle
        = r.f32 (r.f32 (env.k_samplerate : ℚ)
            / ((⟨pwm, blend, 0⟩ : State).sig_locals_rounded r env note mod lfo).hz)) ∧
    (1 ≤ State.cycle_samples r env note mod ∧
      State.cycle_samples r env note mod ≤ env.k_samplerate) ∧
    ((State.cycle_loop_rounded r env note mod lfo k ⟨pwm, blend, 0⟩).2.sig_rounded
        r env note mod lfo).2.frame
      = k % State.cycle_samples r env note mod ∧
    (k < State.cycle_samples r env note mod →
      ((State.cycle_loop_rounded r env note mod lfo k ⟨pwm, blend, 0⟩).2.sig_rounded
        r env note mod lfo).2.frame = k) ∧
    (k < n →
      (State.cycle_loop_rounded r env note mod lfo n ⟨pwm, blend, 0⟩).1[k]?
        = some (env.f32_to_q31
            ((⟨pwm, blend, k % State.cycle_samples r env note mod⟩ : State).sig_rounded
              r env note mod lfo).1)) ∧
    (k + State.cycle_samples r env note mod < n →
      (State.cycle_loop_rounded r env note mod lfo n
          ⟨pwm, blend, 0⟩).1[k + State.cycle_samples r env note mod]?
        = (State.cycle_loop_rounded r env note mod lfo n ⟨pwm, blend, 0⟩).1[k]?) ∧
    State.OSC_CYCLE_rounded r env s params (a + b)
      = ((State.OSC_CYCLE_rounded r env s params a).1
          ++ (State.OSC_CYCLE_rounded r env (State.OSC_CYCLE_rounded r env s params a).2
              params b).1,
        (State.OSC_CYCLE_rounded r env (State.OSC_CYCLE_rounded r env s params a).2
          params b).2) := by
  have hb := State.cycle_samples_bounds r env hmono hnat hrate hmax note mod
  have hev := State.evaluated_frame r env hmono hnat hrate hfit hmax pwm blend lfo note mod
  have hsample : ∀ j : Nat, j < n →
      (State.cycle_loop_rounded r env note mod lfo n ⟨pwm, blend, 0⟩).1[j]?
        = some (env.f32_to_q31
            ((⟨pwm, blend, j % State.cycle_samples r env note mod⟩ : State).sig_rounded
              r env note mod lfo).1) := by
    intro j hj
    rw [State.cycle_loop_rounded_sample r env note mod lfo n _ j hj]
    have hk := State.cycle_loop_rounded_knobs r env note mod lfo j ⟨pwm, blend, 0⟩
    have hlt : j % State.cycle_samples r env note mod < State.cycle_samples r env note mod :=
      Nat.mod_lt _ hb.1
    have hf : ((State.cycle_loop_rounded r env note mod lfo j ⟨pwm, blend, 0⟩).2.sig_rounded
          r env note mod lfo).2.frame
        = ((⟨pwm, blend, j % State.cycle_samples r env note mod⟩ : State).sig_rounded
            r env note mod lfo).2.frame := by
      rw [hev j, State.sig_rounded_frame_samples r env hnat _
        (show (⟨pwm, blend, j % State.cycle_samples r env note mod⟩ : State).frame
          ≤ env.k_samplerate from le_trans (le_of_lt hlt) hb.2), if_neg (not_le.mpr hlt)]
    rw [State.sig_rounded_congr r env _ ⟨pwm, blend, j % State.cycle_samples r env note mod⟩
      note mod lfo hk.1 hk.2 hf]
  refine ⟨⟨rfl, rfl⟩, hb, hev k, ?_, hsample k, ?_,
    State.cycle_loop_rounded_add r env _ _ _ a b s⟩
  · intro hk
    rw [hev k, Nat.mod_eq_of_lt hk]
  · intro hk
    rw [hsample _ hk, hsample k (by omega), Nat.add_mod_right]

theorem cycle_length_is_ceiling_witness :
    ((0 < Env.near_integer.k_samplerate ∧ Env.near_integer.k_samplerate < 2 ^ 32) ∧
      Env.near_integer.k_note_max_hz ≤ Env.near_integer.k_samplerate) ∧
    State.cycle_samples Rounding.ieee Env.near_integer 0 0 = 11 ∧
    ((State.cycle_loop_rounded Rounding.ieee Env.near_integer 0 0 (1 / 4) 11
        ⟨1 / 4, 1 / 2, 0⟩).2.sig_rounded Rounding.ieee Env.near_integer 0 0 (1 / 4)).2.frame
      = 11 % State.cycle_samples Rounding.ieee Env.near_integer 0 0 :=
  have hmax : Env.near_integer.k_note_max_hz ≤ Env.near_integer.k_samplerate := by
    norm_num [Env.near_integer]
  ⟨⟨⟨by decide, by decide⟩, hmax⟩, Env.near_integer_cycle_samples.2.1,
    (cycle_length_is_ceiling Rounding.ieee Env.near_integer binary32_mono
      (fun n hn => binary32_natCast n (lt_of_le_of_lt hn (by decide)))
      (by decide) (by decide) hmax (1 / 4) (1 / 2) (1 / 4) 0 0 30 11 12 18 ⟨0, 0, 0⟩
      ⟨0, 0⟩).2.2.1⟩

end Logue
